import Mathlib

/-!
Verification of the configuration core of the anaxa-builder repository.

The development shallowly embeds the Rust source:
* schema.rs     : ConfigType, ConfigItem (with validate), ConfigNode
* logic.rs      : Evaluator (set_variable, check_dependency), collect_defaults
* config_io.rs  : load_config overlay, save_config, get_minimal_config
* graph.rs      : ConfigGraph::build, extract_variables
* parser.rs     : build_config_tree assembly phase
* tui/mod.rs    : App state machine (visibility, toggle_bool, submit_input,
                  submit_choice, save, handle_main_key)
* tui/state.rs  : AppState::is_visible

External crates are modelled abstractly: evalexpr evaluation is a function
parameter, the regex engine is a function parameter, petgraph tarjan_scc is a
strongly-connected-component partition constrained by hypotheses, and file
system reads/writes are explicit inputs/outputs.  Rust HashMap / toml Table
maps are modelled as association lists with unique keys; HashMap::insert is
key-replacing insertion, and all statements about maps go through lookup so
that iteration order is irrelevant.  Rust panics (slice indexing, unwrap) are
modelled by Option-valued results.  Character classes use the ASCII fragment
of the Unicode predicates the source relies on.
-/

/-- Association list lookup: first entry with the given key (models both
HashMap and BTreeMap lookup, whose keys are unique). -/
def lookupAL {α : Type} : List (String × α) → String → Option α
  | [], _ => none
  | (k2, v) :: t, k => if k2 = k then some v else lookupAL t k

/-- Key-replacing insertion, the map semantics of HashMap::insert /
BTreeMap::insert: overwrite the first entry with the key, else append. -/
def insertAL {α : Type} : List (String × α) → String → α → List (String × α)
  | [], k, v => [(k, v)]
  | (k2, v2) :: t, k, v => if k2 = k then (k, v) :: t else (k2, v2) :: insertAL t k v

/-- Keys of an association list. -/
def keysAL {α : Type} (l : List (String × α)) : List String := l.map Prod.fst

/-- Scalar values of the toml::Value sum type.  Float, Datetime, Array and
Table carry no behavior relevant to this core (every function under
verification only inspects booleans, integers and strings), so they are
collapsed into an `other` constructor whose tag preserves equality
distinctions between such values. -/
inductive TomlValue : Type where
  | boolean (b : Bool)
  | integer (i : Int)
  | str (s : String)
  | other (tag : Nat)
deriving DecidableEq, Repr

/-- toml::Value::is_bool. -/
def TomlValue.is_bool : TomlValue → Bool
  | .boolean _ => true
  | _ => false

/-- toml::Value::as_integer. -/
def TomlValue.as_integer : TomlValue → Option Int
  | .integer i => some i
  | _ => none

/-- toml::Value::as_str. -/
def TomlValue.as_str : TomlValue → Option String
  | .str s => some s
  | _ => none

/-- A toml value of one of the three scalar shapes the Value Store is
specified to hold. -/
def TomlValue.isScalar : TomlValue → Bool
  | .boolean _ => true
  | .integer _ => true
  | .str _ => true
  | .other _ => false

/-- schema.rs ConfigType. -/
inductive ConfigType : Type where
  | bool
  | int
  | hex
  | string
  | choice
deriving DecidableEq, Repr

/-- schema.rs ConfigItem. -/
structure ConfigItem : Type where
  name : String
  config_type : ConfigType
  default : Option TomlValue
  desc : String
  depends_on : Option String
  help : Option String
  options : Option (List String)
  feature : Option (List String)
  range : Option (Int × Int)
  regex : Option String
deriving DecidableEq, Repr

/-- schema.rs ConfigNode; recursive, hence an inductive with projections.
The path is modelled as its list of components (the PathBuf the parser keys
nodes by); the root path is the empty list. -/
inductive ConfigNode : Type where
  | mk (desc : String) (configs : List ConfigItem) (children : List ConfigNode)
      (path : List String) (depends_on : Option String)

/-- Title of a node. -/
def ConfigNode.desc : ConfigNode → String
  | .mk d _ _ _ _ => d

/-- Items declared directly on a node. -/
def ConfigNode.configs : ConfigNode → List ConfigItem
  | .mk _ c _ _ _ => c

/-- Child menus of a node. -/
def ConfigNode.children : ConfigNode → List ConfigNode
  | .mk _ _ ch _ _ => ch

/-- Relative directory path of a node, as components. -/
def ConfigNode.path : ConfigNode → List String
  | .mk _ _ _ p _ => p

/-- Node-level dependency expression. -/
def ConfigNode.depends_on : ConfigNode → Option String
  | .mk _ _ _ _ d => d

/-- Values of the evalexpr expression language.  Float, Tuple and Empty are
collapsed into `other`: check_dependency coerces all of them to false. -/
inductive EvalValue : Type where
  | boolean (b : Bool)
  | int (i : Int)
  | str (s : String)
  | other (tag : Nat)
deriving DecidableEq, Repr

/-- Conversion performed by Evaluator::set_variable: scalar toml values map
to evalexpr values, all others are skipped (the source returns Ok without
touching the context). -/
def tomlToEval : TomlValue → Option EvalValue
  | .boolean b => some (.boolean b)
  | .integer i => some (.int i)
  | .str s => some (.str s)
  | .other _ => none

/-- logic.rs Evaluator::set_variable acting on the context. -/
def set_variable (ctx : List (String × EvalValue)) (name : String) (v : TomlValue) :
    List (String × EvalValue) :=
  match tomlToEval v with
  | some ev => insertAL ctx name ev
  | none => ctx

/-- Abstract model of evalexpr::eval_with_context: the context plus the
expression text produce either a value or an evaluation error (unresolved
identifier, malformed expression).  The crate is external to the repository,
so it is a parameter of every definition that calls it. -/
def EvalFn : Type := List (String × EvalValue) → String → Except String EvalValue

/-- Test performed by check_dependency, written expr.trim().is_empty() in
the source: the expression is empty or consists solely of whitespace. -/
def trimIsEmpty (s : String) : Bool := s.data.all Char.isWhitespace

/-- logic.rs Evaluator::check_dependency. -/
def check_dependency (f : EvalFn) (ctx : List (String × EvalValue)) (expr : String) :
    Except String Bool :=
  if trimIsEmpty expr then .ok true
  else
    match f ctx expr with
    | .error _ => .error ("Failed to evaluate expression: " ++ expr)
    | .ok (.boolean b) => .ok b
    | .ok (.int i) => .ok (i != 0)
    | .ok _ => .ok false

/-- logic.rs collect_defaults. -/
def collect_defaults (items : List ConfigItem) : List (String × TomlValue) :=
  items.foldl
    (fun m i =>
      match i.default with
      | some v => insertAL m i.name v
      | none => m)
    []

/-- tui/mod.rs App::is_visible_config: unwrap_or(true) on the check result. -/
def is_visible_config (f : EvalFn) (ctx : List (String × EvalValue))
    (config : ConfigItem) : Bool :=
  match config.depends_on with
  | some expr =>
    match check_dependency f ctx expr with
    | .ok b => b
    | .error _ => true
  | none => true

/-- tui/mod.rs App::is_visible_node: unwrap_or(true) on the check result. -/
def is_visible_node (f : EvalFn) (ctx : List (String × EvalValue))
    (node : ConfigNode) : Bool :=
  match node.depends_on with
  | some expr =>
    match check_dependency f ctx expr with
    | .ok b => b
    | .error _ => true
  | none => true

/-- tui/state.rs AppState::is_visible: unwrap_or(false) on the check result. -/
def AppState.is_visible (f : EvalFn) (ctx : List (String × EvalValue))
    (item : ConfigItem) : Bool :=
  match item.depends_on with
  | some dep =>
    match check_dependency f ctx dep with
    | .ok b => b
    | .error _ => false
  | none => true

/-- schema.rs ConfigItem::validate.  The regex crate is external: rm re s
models Regex::new(re) followed by is_match(s), with none for an invalid
regex and some b for a match verdict. -/
def validate (rm : String → String → Option Bool) (item : ConfigItem)
    (value : TomlValue) : Except String Unit :=
  match item.config_type with
  | .bool =>
    if value.is_bool then .ok () else .error ("Config " ++ item.name ++ " expected bool")
  | .int | .hex =>
    match value.as_integer with
    | none => .error ("Config " ++ item.name ++ " expected integer")
    | some val =>
      match item.range with
      | some (mn, mx) =>
        if val < mn ∨ val > mx then
          .error ("Config " ++ item.name ++ " value out of range")
        else .ok ()
      | none => .ok ()
  | .string =>
    match value.as_str with
    | none => .error ("Config " ++ item.name ++ " expected string")
    | some val =>
      match item.regex with
      | some re =>
        match rm re val with
        | none => .error ("Invalid regex for config " ++ item.name)
        | some true => .ok ()
        | some false => .error ("Config " ++ item.name ++ " value does not match regex")
      | none => .ok ()
  | .choice =>
    match value.as_str with
    | none => .error ("Config " ++ item.name ++ " expected string choice")
    | some val =>
      match item.options with
      | some opts =>
        if opts.contains val then .ok ()
        else .error ("Config " ++ item.name ++ " value is not a valid option")
      | none => .ok ()
/-! Association list lemmas. -/

theorem keysAL_nil {α : Type} : keysAL ([] : List (String × α)) = [] := rfl

theorem keysAL_cons {α : Type} (k : String) (v : α) (t : List (String × α)) :
    keysAL ((k, v) :: t) = k :: keysAL t := rfl

theorem lookupAL_insert_self {α : Type} (l : List (String × α)) (k : String) (v : α) :
    lookupAL (insertAL l k v) k = some v := by
  induction l with
  | nil => simp [insertAL, lookupAL]
  | cons h t ih =>
    obtain ⟨k2, v2⟩ := h
    by_cases hk : k2 = k
    · simp [insertAL, hk, lookupAL]
    · simp [insertAL, hk, lookupAL, ih]

theorem lookupAL_insert_ne {α : Type} (l : List (String × α)) (k k2 : String) (v : α)
    (h : k2 ≠ k) : lookupAL (insertAL l k v) k2 = lookupAL l k2 := by
  have hne : ¬ k = k2 := fun he => h he.symm
  induction l with
  | nil =>
    simp only [insertAL, lookupAL]
    rw [if_neg hne]
  | cons hd t ih =>
    obtain ⟨k3, v3⟩ := hd
    by_cases hk : k3 = k
    · subst hk
      simp only [insertAL, if_pos rfl, lookupAL]
      rw [if_neg hne, if_neg hne]
    · simp only [insertAL, lookupAL]
      rw [if_neg hk]
      simp only [lookupAL]
      by_cases hk2 : k3 = k2
      · rw [if_pos hk2, if_pos hk2]
      · rw [if_neg hk2, if_neg hk2, ih]

theorem lookupAL_eq_none_of_not_mem {α : Type} (l : List (String × α)) (k : String)
    (h : k ∉ keysAL l) : lookupAL l k = none := by
  induction l with
  | nil => rfl
  | cons hd t ih =>
    obtain ⟨k2, v2⟩ := hd
    rw [keysAL_cons] at h
    have h1 : ¬ k2 = k := fun he => h (List.mem_cons.mpr (Or.inl he.symm))
    have h2 : k ∉ keysAL t := fun hm => h (List.mem_cons.mpr (Or.inr hm))
    simp only [lookupAL]
    rw [if_neg h1]
    exact ih h2

theorem mem_of_lookupAL_eq_some {α : Type} (l : List (String × α)) (k : String) (v : α)
    (h : lookupAL l k = some v) : (k, v) ∈ l := by
  induction l with
  | nil => exact absurd h (by simp [lookupAL])
  | cons hd t ih =>
    obtain ⟨k2, v2⟩ := hd
    by_cases hk : k2 = k
    · rw [lookupAL, if_pos hk] at h
      obtain rfl := Option.some_inj.mp h
      subst hk
      exact List.mem_cons_self _ _
    · rw [lookupAL, if_neg hk] at h
      exact List.mem_cons_of_mem _ (ih h)

theorem lookupAL_eq_some_of_mem {α : Type} (l : List (String × α)) (k : String) (v : α)
    (hnd : (keysAL l).Nodup) (h : (k, v) ∈ l) : lookupAL l k = some v := by
  induction l with
  | nil => simp at h
  | cons hd t ih =>
    obtain ⟨k2, v2⟩ := hd
    rw [keysAL_cons, List.nodup_cons] at hnd
    rcases List.mem_cons.mp h with h1 | h2
    · cases h1
      rw [lookupAL, if_pos rfl]
    · have hkmem : k ∈ keysAL t := by
        have := List.mem_map_of_mem Prod.fst h2
        exact this
      have hne : ¬ k2 = k := fun he => hnd.1 (by rw [he]; exact hkmem)
      rw [lookupAL, if_neg hne]
      exact ih hnd.2 h2

theorem keysAL_insert_subset {α : Type} (l : List (String × α)) (k : String) (v : α) :
    ∀ k2, k2 ∈ keysAL (insertAL l k v) → k2 = k ∨ k2 ∈ keysAL l := by
  induction l with
  | nil =>
    intro k2 h
    simp [insertAL, keysAL] at h
    exact Or.inl h
  | cons hd t ih =>
    obtain ⟨k3, v3⟩ := hd
    intro k2 hm
    by_cases hk : k3 = k
    · simp only [insertAL] at hm
      rw [if_pos hk, keysAL_cons] at hm
      rcases List.mem_cons.mp hm with h1 | h2
      · exact Or.inl h1
      · exact Or.inr (by rw [keysAL_cons]; exact List.mem_cons_of_mem _ h2)
    · simp only [insertAL] at hm
      rw [if_neg hk, keysAL_cons] at hm
      rcases List.mem_cons.mp hm with h1 | h2
      · exact Or.inr (by rw [keysAL_cons, h1]; exact List.mem_cons_self _ _)
      · rcases ih k2 h2 with h3 | h4
        · exact Or.inl h3
        · exact Or.inr (by rw [keysAL_cons]; exact List.mem_cons_of_mem _ h4)

theorem keysAL_insert_nodup {α : Type} (l : List (String × α)) (k : String) (v : α)
    (hnd : (keysAL l).Nodup) : (keysAL (insertAL l k v)).Nodup := by
  induction l with
  | nil => simp [insertAL, keysAL]
  | cons hd t ih =>
    obtain ⟨k3, v3⟩ := hd
    rw [keysAL_cons, List.nodup_cons] at hnd
    by_cases hk : k3 = k
    · simp only [insertAL]
      rw [if_pos hk, keysAL_cons, List.nodup_cons]
      exact ⟨hk ▸ hnd.1, hnd.2⟩
    · simp only [insertAL]
      rw [if_neg hk, keysAL_cons, List.nodup_cons]
      refine ⟨?_, ih hnd.2⟩
      intro hmem
      rcases keysAL_insert_subset t k v k3 hmem with h1 | h2
      · exact hk h1
      · exact hnd.1 h2

theorem mem_insertAL {α : Type} (l : List (String × α)) (k : String) (v : α)
    (k2 : String) (v2 : α) (h : (k2, v2) ∈ insertAL l k v) (hne : k2 ≠ k) :
    (k2, v2) ∈ l := by
  induction l with
  | nil =>
    simp only [insertAL, List.mem_singleton] at h
    exact absurd (congrArg Prod.fst h) hne
  | cons hd t ih =>
    obtain ⟨k3, v3⟩ := hd
    by_cases hk : k3 = k
    · simp only [insertAL] at h
      rw [if_pos hk] at h
      rcases List.mem_cons.mp h with h1 | h2
      · exact absurd (congrArg Prod.fst h1) hne
      · exact List.mem_cons_of_mem _ h2
    · simp only [insertAL] at h
      rw [if_neg hk] at h
      rcases List.mem_cons.mp h with h1 | h2
      · rw [h1]
        exact List.mem_cons_self _ _
      · exact List.mem_cons_of_mem _ (ih h2)

/-- Generic shape of the map-building loops of the source (collect_defaults,
the load_config overlay, get_minimal_config, update_evaluator): walk a list
and either insert a derived entry into an association-list accumulator or
leave it unchanged. -/
def keyedFold {ι β : Type} (key : ι → String) (g : ι → Option β)
    (as : List ι) (init : List (String × β)) : List (String × β) :=
  as.foldl
    (fun m i =>
      match g i with
      | some w => insertAL m (key i) w
      | none => m)
    init

theorem keyedFold_cons {ι β : Type} (key : ι → String) (g : ι → Option β)
    (hd : ι) (t : List ι) (init : List (String × β)) :
    keyedFold key g (hd :: t) init =
      keyedFold key g t
        (match g hd with
        | some w => insertAL init (key hd) w
        | none => init) := rfl

theorem keyedFold_lookup_of_not_mem {ι β : Type} (key : ι → String) (g : ι → Option β)
    (as : List ι) (init : List (String × β)) (k : String)
    (h : k ∉ as.map key) :
    lookupAL (keyedFold key g as init) k = lookupAL init k := by
  induction as generalizing init with
  | nil => rfl
  | cons hd t ih =>
    rw [List.map_cons] at h
    have h1 : ¬ k = key hd := fun he => h (List.mem_cons.mpr (Or.inl he))
    have h2 : k ∉ t.map key := fun hm => h (List.mem_cons.mpr (Or.inr hm))
    rw [keyedFold_cons]
    rcases hg : g hd with _ | w
    · simp only [hg]
      exact ih _ h2
    · simp only [hg]
      rw [ih _ h2]
      exact lookupAL_insert_ne _ _ _ _ h1

theorem keyedFold_lookup {ι β : Type} (key : ι → String) (g : ι → Option β)
    (as : List ι) (init : List (String × β)) (k : String)
    (hnd : (as.map key).Nodup) :
    lookupAL (keyedFold key g as init) k =
      match as.find? (fun i => key i == k) with
      | some i =>
        match g i with
        | some w => some w
        | none => lookupAL init k
      | none => lookupAL init k := by
  induction as generalizing init with
  | nil => rfl
  | cons hd t ih =>
    rw [List.map_cons, List.nodup_cons] at hnd
    by_cases hk : key hd = k
    · have hnotin : k ∉ t.map key := by
        rw [← hk]
        exact hnd.1
      have hfind : List.find? (fun i => key i == k) (hd :: t) = some hd := by
        simp [List.find?_cons, hk]
      rw [hfind, keyedFold_cons]
      rcases hg : g hd with _ | w
      · simp only [hg]
        exact keyedFold_lookup_of_not_mem key g t init k hnotin
      · simp only [hg]
        rw [keyedFold_lookup_of_not_mem key g t _ k hnotin, hk, lookupAL_insert_self]
    · have hfind : List.find? (fun i => key i == k) (hd :: t) =
          List.find? (fun i => key i == k) t := by
        simp [List.find?_cons, hk]
      rw [hfind, keyedFold_cons]
      rcases hg : g hd with _ | w
      · simp only [hg]
        exact ih _ hnd.2
      · simp only [hg]
        rw [ih _ hnd.2]
        cases hfind2 : List.find? (fun i => key i == k) t with
        | none =>
          show lookupAL (insertAL init (key hd) w) k = lookupAL init k
          exact lookupAL_insert_ne _ _ _ _ (fun he => hk he.symm)
        | some i =>
          show (match g i with
              | some w2 => some w2
              | none => lookupAL (insertAL init (key hd) w) k) =
            (match g i with
              | some w2 => some w2
              | none => lookupAL init k)
          cases hgi : g i with
          | none => exact lookupAL_insert_ne _ _ _ _ (fun he => hk he.symm)
          | some w2 => rfl
/-! Embedding of config_io.rs. -/

/-- Overlay loop body of config_io.rs load_config, as the optional value it
inserts for one parsed entry: the entry is kept iff its key names a declared
item (first match, as items.iter().find does) and the value validates. -/
def loadStep (rm : String → String → Option Bool) (items : List ConfigItem)
    (kv : String × TomlValue) : Option TomlValue :=
  match items.find? (fun i => i.name == kv.1) with
  | some item =>
    match validate rm item kv.2 with
    | .ok _ => some kv.2
    | .error _ => none
  | none => none

/-- config_io.rs load_config for an existing file whose toml parse yielded
the table `parsed`: seed from collect_defaults, then overlay each parsed
entry that names a declared item and validates; invalid entries are dropped
(with a printed warning, a side effect outside the value model).  A missing
file is the special case parsed = [].  Read and parse failures abort load
before this loop and are not modelled. -/
def load_config (rm : String → String → Option Bool) (items : List ConfigItem)
    (parsed : List (String × TomlValue)) : List (String × TomlValue) :=
  parsed.foldl
    (fun values kv =>
      match items.find? (fun i => i.name == kv.1) with
      | some item =>
        match validate rm item kv.2 with
        | .error _ => values
        | .ok _ => insertAL values kv.1 kv.2
      | none => values)
    (collect_defaults items)

/-- Filter body of get_minimal_config for one current entry: kept unless the
item has a declared default equal to the current value. -/
def minimalStep (defaults : List (String × TomlValue)) (nv : String × TomlValue) :
    Option TomlValue :=
  match lookupAL defaults nv.1 with
  | some d => if nv.2 ≠ d then some nv.2 else none
  | none => some nv.2

/-- config_io.rs get_minimal_config. -/
def get_minimal_config (current : List (String × TomlValue)) (items : List ConfigItem) :
    List (String × TomlValue) :=
  let defaults := collect_defaults items
  current.foldl
    (fun minimal nv =>
      match lookupAL defaults nv.1 with
      | some d => if nv.2 ≠ d then insertAL minimal nv.1 nv.2 else minimal
      | none => insertAL minimal nv.1 nv.2)
    []

theorem collect_defaults_eq_keyedFold (items : List ConfigItem) :
    collect_defaults items = keyedFold ConfigItem.name ConfigItem.default items [] := by
  unfold collect_defaults keyedFold
  apply List.foldl_ext
  intro m i _
  cases hi : i.default with
  | none => rfl
  | some v => rfl

theorem load_config_eq_keyedFold (rm : String → String → Option Bool)
    (items : List ConfigItem) (parsed : List (String × TomlValue)) :
    load_config rm items parsed =
      keyedFold Prod.fst (loadStep rm items) parsed (collect_defaults items) := by
  unfold load_config keyedFold
  apply List.foldl_ext
  intro values kv _
  unfold loadStep
  cases hf : items.find? (fun i => i.name == kv.1) with
  | none => rfl
  | some item =>
    simp only
    cases validate rm item kv.2 with
    | ok _ => rfl
    | error _ => rfl

theorem get_minimal_config_eq_keyedFold (current : List (String × TomlValue))
    (items : List ConfigItem) :
    get_minimal_config current items =
      keyedFold Prod.fst (minimalStep (collect_defaults items)) current [] := by
  unfold get_minimal_config keyedFold
  apply List.foldl_ext
  intro minimal nv _
  unfold minimalStep
  cases hl : lookupAL (collect_defaults items) nv.1 with
  | none => rfl
  | some d =>
    simp only
    by_cases hd : nv.2 ≠ d
    · simp only [if_pos hd]
    · simp only [if_neg hd]

/-! Embedding of graph.rs. -/

/-- Split a character sequence at every character satisfying the predicate,
keeping empty segments, exactly as str::split with a char-predicate pattern
does in Rust (and String.split does in Lean). -/
def splitChars (p : Char → Bool) : List Char → List (List Char)
  | [] => [[]]
  | c :: rest =>
    if p c then [] :: splitChars p rest
    else
      match splitChars p rest with
      | t :: ts => (c :: t) :: ts
      | [] => [[c]]

/-- graph.rs extract_variables: split the expression at every character that
is not alphanumeric or an underscore, keep the nonempty tokens whose first
character is not a digit. -/
def extract_variables (expr : String) : List String :=
  ((splitChars (fun c => !(c.isAlphanum || c == '_')) expr.data).filter
    (fun s => !s.isEmpty && !(s.headD ' ').isDigit)).map (fun cs => String.mk cs)

/-- Names of all declared items: the node set of the dependency graph and
the key set of the item_map in graph.rs. -/
def itemNames (items : List ConfigItem) : List String := items.map ConfigItem.name

/-- Edge set built by graph.rs ConfigGraph::build: for every item with a
depends_on expression, an edge from each extracted token that names a known
item to the item itself (dependency to dependent); all other tokens are
dropped. -/
def graphEdges (items : List ConfigItem) : List (String × String) :=
  items.flatMap
    (fun item =>
      match item.depends_on with
      | none => []
      | some dep =>
        (extract_variables dep).filterMap
          (fun v => if (itemNames items).contains v then some (v, item.name) else none))

/-- Reflexive-transitive reachability along the edge list. -/
inductive Reach (E : List (String × String)) : String → String → Prop where
  | refl (u : String) : Reach E u u
  | step {u v w : String} : (u, v) ∈ E → Reach E v w → Reach E u w

/-- Mutual reachability: membership in the same strongly connected
component. -/
def sameSCC (E : List (String × String)) (u v : String) : Prop :=
  Reach E u v ∧ Reach E v u

/-- The two fatal outcomes of graph construction. -/
inductive GraphError : Type where
  | cycle (members : List String)
  | selfDep (node : String)
deriving DecidableEq, Repr

/-- Validation loop of ConfigGraph::build over the tarjan_scc output: a
component of size greater than one is a cycle error naming its members, a
singleton whose node carries a self-edge is a self-dependency error. -/
def checkSccs (E : List (String × String)) : List (List String) → Except GraphError Unit
  | [] => .ok ()
  | scc :: rest =>
    if scc.length > 1 then .error (.cycle scc)
    else
      match scc with
      | [n] => if (n, n) ∈ E then .error (.selfDep n) else checkSccs E rest
      | _ => checkSccs E rest

/-- graph.rs ConfigGraph::build.  petgraph tarjan_scc is an external crate,
so the component list it returns is a parameter; the theorems about build
constrain it to be a strongly-connected-component partition of the node
set. -/
def ConfigGraph.build (items : List ConfigItem) (sccs : List (List String)) :
    Except GraphError (List (String × String)) :=
  match checkSccs (graphEdges items) sccs with
  | .error e => .error e
  | .ok _ => .ok (graphEdges items)

/-- Contract of petgraph tarjan_scc: the returned component list covers
exactly the node set, its components are nonempty and duplicate free, the
members of one component are mutually reachable, and each component is
closed under mutual reachability within the node set. -/
def isSCCPartition (E : List (String × String)) (nodes : List String)
    (sccs : List (List String)) : Prop :=
  (∀ n, n ∈ nodes ↔ ∃ c ∈ sccs, n ∈ c) ∧
  (∀ c ∈ sccs, c ≠ []) ∧
  (∀ c ∈ sccs, c.Nodup) ∧
  (∀ c ∈ sccs, ∀ u ∈ c, ∀ v ∈ c, sameSCC E u v) ∧
  (∀ c ∈ sccs, ∀ u ∈ c, ∀ v ∈ nodes, sameSCC E u v → v ∈ c)

theorem checkSccs_ok_iff (E : List (String × String)) (sccs : List (List String)) :
    checkSccs E sccs = .ok () ↔
      ∀ c ∈ sccs, c.length ≤ 1 ∧ ∀ n, c = [n] → (n, n) ∉ E := by
  induction sccs with
  | nil => simp [checkSccs]
  | cons c rest ih =>
    by_cases hlen : c.length > 1
    · simp only [checkSccs, if_pos hlen]
      constructor
      · intro h
        cases h
      · intro h
        exact absurd (h c (List.mem_cons_self _ _)).1 (by omega)
    · simp only [checkSccs, if_neg hlen]
      rcases c with _ | ⟨n, t⟩
      · rw [ih]
        constructor
        · intro h c2 hc2
          rcases List.mem_cons.mp hc2 with h1 | h2
          · subst h1
            exact ⟨by simp, fun n hn => by cases hn⟩
          · exact h c2 h2
        · intro h c2 hc2
          exact h c2 (List.mem_cons_of_mem _ hc2)
      · rcases t with _ | ⟨n2, t2⟩
        · by_cases hself : (n, n) ∈ E
          · simp only [if_pos hself]
            constructor
            · intro h
              cases h
            · intro h
              exact absurd hself ((h [n] (List.mem_cons_self _ _)).2 n rfl)
          · simp only [if_neg hself]
            rw [ih]
            constructor
            · intro h c2 hc2
              rcases List.mem_cons.mp hc2 with h1 | h2
              · subst h1
                refine ⟨by simp, ?_⟩
                intro n2 hn2
                obtain rfl : n = n2 := by
                  injection hn2
                exact hself
              · exact h c2 h2
            · intro h c2 hc2
              exact h c2 (List.mem_cons_of_mem _ hc2)
        · exfalso
          apply hlen
          simp [List.length]

theorem checkSccs_cycle_mem (E : List (String × String)) (sccs : List (List String))
    (c : List String) (h : checkSccs E sccs = .error (.cycle c)) :
    c ∈ sccs ∧ 1 < c.length := by
  induction sccs with
  | nil => cases h
  | cons c2 rest ih =>
    by_cases hlen : c2.length > 1
    · simp only [checkSccs, if_pos hlen] at h
      obtain rfl : c2 = c := by
        injection h with h2
        injection h2
      exact ⟨List.mem_cons_self _ _, hlen⟩
    · simp only [checkSccs, if_neg hlen] at h
      rcases c2 with _ | ⟨n, t⟩
      · obtain ⟨h1, h2⟩ := ih h
        exact ⟨List.mem_cons_of_mem _ h1, h2⟩
      · rcases t with _ | ⟨n2, t2⟩
        · simp only at h
          by_cases hself : (n, n) ∈ E
          · rw [if_pos hself] at h
            exfalso
            injection h with h2
            injection h2
          · rw [if_neg hself] at h
            obtain ⟨h1, h2⟩ := ih h
            exact ⟨List.mem_cons_of_mem _ h1, h2⟩
        · exfalso
          apply hlen
          simp [List.length]

theorem checkSccs_selfDep_mem (E : List (String × String)) (sccs : List (List String))
    (n : String) (h : checkSccs E sccs = .error (.selfDep n)) :
    [n] ∈ sccs ∧ (n, n) ∈ E := by
  induction sccs with
  | nil => cases h
  | cons c2 rest ih =>
    by_cases hlen : c2.length > 1
    · simp only [checkSccs, if_pos hlen] at h
      exfalso
      injection h with h2
      injection h2
    · simp only [checkSccs, if_neg hlen] at h
      rcases c2 with _ | ⟨m, t⟩
      · obtain ⟨h1, h2⟩ := ih h
        exact ⟨List.mem_cons_of_mem _ h1, h2⟩
      · rcases t with _ | ⟨m2, t2⟩
        · simp only at h
          by_cases hself : (m, m) ∈ E
          · rw [if_pos hself] at h
            obtain rfl : m = n := by
              injection h with h2
              injection h2
            exact ⟨List.mem_cons_self _ _, hself⟩
          · rw [if_neg hself] at h
            obtain ⟨h1, h2⟩ := ih h
            exact ⟨List.mem_cons_of_mem _ h1, h2⟩
        · exfalso
          apply hlen
          simp [List.length]

theorem graphEdges_mem (items : List ConfigItem) (a b : String)
    (h : (a, b) ∈ graphEdges items) :
    a ∈ itemNames items ∧ b ∈ itemNames items := by
  unfold graphEdges at h
  rw [List.mem_flatMap] at h
  obtain ⟨item, hitem, hmem⟩ := h
  cases hdep : item.depends_on with
  | none =>
    rw [hdep] at hmem
    simp at hmem
  | some dep =>
    rw [hdep] at hmem
    simp only at hmem
    rw [List.mem_filterMap] at hmem
    obtain ⟨v, hv, hres⟩ := hmem
    by_cases hc : (itemNames items).contains v
    · rw [if_pos hc] at hres
      have hpair : (v, item.name) = (a, b) := by injection hres
      obtain ⟨rfl, rfl⟩ := Prod.mk.injEq _ _ _ _ ▸ hpair
      constructor
      · exact List.mem_of_elem_eq_true hc
      · exact List.mem_map_of_mem ConfigItem.name hitem
    · rw [if_neg hc] at hres
      cases hres

theorem one_lt_length_of_two_mem {α : Type} {l : List α} {u v : α}
    (hu : u ∈ l) (hv : v ∈ l) (hne : u ≠ v) : 1 < l.length := by
  rcases l with _ | ⟨a, t⟩
  · cases hu
  · rcases t with _ | ⟨a2, t2⟩
    · rw [List.mem_singleton] at hu hv
      exact absurd (hu.trans hv.symm) hne
    · simp [List.length]

theorem reach_eq_of_no_out (E : List (String × String)) (u : String)
    (hout : ∀ v, (u, v) ∉ E) : ∀ w, Reach E u w → w = u := by
  intro w h
  cases h with
  | refl => rfl
  | step h1 h2 => exact absurd h1 (hout _)

theorem build_ok_iff_checkSccs_ok (items : List ConfigItem) (sccs : List (List String)) :
    (∃ g, ConfigGraph.build items sccs = .ok g) ↔
      checkSccs (graphEdges items) sccs = .ok () := by
  unfold ConfigGraph.build
  cases hc : checkSccs (graphEdges items) sccs with
  | ok u =>
    cases u
    simp
  | error e => simp

theorem build_error_checkSccs (items : List ConfigItem) (sccs : List (List String))
    (e : GraphError) (hb : ConfigGraph.build items sccs = .error e) :
    checkSccs (graphEdges items) sccs = .error e := by
  unfold ConfigGraph.build at hb
  revert hb
  cases hc : checkSccs (graphEdges items) sccs with
  | ok u =>
    intro hb
    simp at hb
  | error e2 =>
    intro hb
    simp only at hb
    injection hb with h2
    rw [h2]

/-- C2 statement body: ConfigGraph::build succeeds iff the token-derived
dependency graph has no strongly connected component of size greater than
one and no self-edge, a cycle error names the members of one oversized
component, and a self-dependency error exhibits a self-edge. -/
theorem configGraph_build_spec (items : List ConfigItem) (sccs : List (List String))
    (hp : isSCCPartition (graphEdges items) (itemNames items) sccs) :
    ((∃ g, ConfigGraph.build items sccs = .ok g) ↔
        ((∀ u v, u ∈ itemNames items → v ∈ itemNames items → u ≠ v →
            ¬ sameSCC (graphEdges items) u v) ∧
          (∀ n, (n, n) ∉ graphEdges items))) ∧
    (∀ c, ConfigGraph.build items sccs = .error (.cycle c) →
        1 < c.length ∧ ∀ u ∈ c, ∀ v ∈ c, sameSCC (graphEdges items) u v) ∧
    (∀ n, ConfigGraph.build items sccs = .error (.selfDep n) →
        (n, n) ∈ graphEdges items) := by
  obtain ⟨hcov, hnonempty, hnodup, hmutual, hclosed⟩ := hp
  refine ⟨?_, ?_, ?_⟩
  · rw [build_ok_iff_checkSccs_ok, checkSccs_ok_iff]
    constructor
    · intro hok
      constructor
      · intro u v hu hv huv hsame
        obtain ⟨c, hc, huc⟩ := (hcov u).mp hu
        have hvc : v ∈ c := hclosed c hc u huc v hv hsame
        have hlen : 1 < c.length := one_lt_length_of_two_mem huc hvc huv
        exact absurd (hok c hc).1 (by omega)
      · intro n hself
        have hn : n ∈ itemNames items := (graphEdges_mem items n n hself).1
        obtain ⟨c, hc, hnc⟩ := (hcov n).mp hn
        have hlen : c.length ≤ 1 := (hok c hc).1
        have hne := hnonempty c hc
        have hcn : c = [n] := by
          rcases c with _ | ⟨x, t⟩
          · exact absurd rfl hne
          · rcases t with _ | ⟨x2, t2⟩
            · rw [List.mem_singleton] at hnc
              rw [hnc]
            · exfalso
              simp [List.length] at hlen
        exact absurd hself ((hok c hc).2 n hcn)
    · intro hcond c hc
      constructor
      · by_contra hlen
        push_neg at hlen
        rcases c with _ | ⟨u, t⟩
        · simp at hlen
        · rcases t with _ | ⟨v, t2⟩
          · simp at hlen
          · have hu : u ∈ u :: v :: t2 := List.mem_cons_self _ _
            have hv : v ∈ u :: v :: t2 := List.mem_cons_of_mem _ (List.mem_cons_self _ _)
            have huv : u ≠ v := by
              have := hnodup _ hc
              rw [List.nodup_cons] at this
              intro he
              exact this.1 (he ▸ List.mem_cons_self _ _)
            have hun : u ∈ itemNames items := (hcov u).mpr ⟨_, hc, hu⟩
            have hvn : v ∈ itemNames items := (hcov v).mpr ⟨_, hc, hv⟩
            exact hcond.1 u v hun hvn huv (hmutual _ hc u hu v hv)
      · intro n hcn
        subst hcn
        exact fun hself => hcond.2 n hself
  · intro c hb
    have hc := build_error_checkSccs items sccs _ hb
    obtain ⟨hmem, hlen⟩ := checkSccs_cycle_mem _ _ _ hc
    exact ⟨hlen, hmutual c hmem⟩
  · intro n hb
    have hc := build_error_checkSccs items sccs _ hb
    exact (checkSccs_selfDep_mem _ _ _ hc).2

/-- Concrete two item schema for exercising the graph theorems: A depends on
B, B depends on nothing. -/
def witGraphItems : List ConfigItem :=
  [⟨"A", .bool, none, "A", some "B", none, none, none, none, none⟩,
   ⟨"B", .bool, none, "B", none, none, none, none, none, none⟩]

/-- A component list tarjan_scc can return for witGraphItems. -/
def witGraphSccs : List (List String) := [["A"], ["B"]]

theorem witGraphEdges_eq : graphEdges witGraphItems = [("B", "A")] := by decide

theorem witGraphNames_eq : itemNames witGraphItems = ["A", "B"] := by decide

theorem witGraphPartition :
    isSCCPartition (graphEdges witGraphItems) (itemNames witGraphItems) witGraphSccs := by
  refine ⟨?_, ?_, ?_, ?_, ?_⟩
  · intro n
    constructor
    · intro hn
      rw [witGraphNames_eq] at hn
      have h2 : n = "A" ∨ n = "B" := by simpa using hn
      rcases h2 with rfl | rfl
      · exact ⟨["A"], by simp [witGraphSccs], by simp⟩
      · exact ⟨["B"], by simp [witGraphSccs], by simp⟩
    · rintro ⟨c, hc, hnc⟩
      have hc2 : c = ["A"] ∨ c = ["B"] := by simpa [witGraphSccs] using hc
      rw [witGraphNames_eq]
      rcases hc2 with rfl | rfl
      · rw [List.mem_singleton] at hnc
        simp [hnc]
      · rw [List.mem_singleton] at hnc
        simp [hnc]
  · intro c hc
    have hc2 : c = ["A"] ∨ c = ["B"] := by simpa [witGraphSccs] using hc
    rcases hc2 with rfl | rfl <;> simp
  · intro c hc
    have hc2 : c = ["A"] ∨ c = ["B"] := by simpa [witGraphSccs] using hc
    rcases hc2 with rfl | rfl <;> simp
  · intro c hc u hu v hv
    have hc2 : c = ["A"] ∨ c = ["B"] := by simpa [witGraphSccs] using hc
    rcases hc2 with rfl | rfl
    · rw [List.mem_singleton] at hu hv
      subst hu
      subst hv
      exact ⟨Reach.refl _, Reach.refl _⟩
    · rw [List.mem_singleton] at hu hv
      subst hu
      subst hv
      exact ⟨Reach.refl _, Reach.refl _⟩
  · intro c hc u hu v hv hsame
    have hAonly : ∀ w, Reach (graphEdges witGraphItems) "A" w → w = "A" := by
      apply reach_eq_of_no_out
      intro w hw
      rw [witGraphEdges_eq] at hw
      rw [List.mem_singleton] at hw
      have hw2 : "A" = "B" := congrArg Prod.fst hw
      exact absurd hw2 (by decide)
    have hc2 : c = ["A"] ∨ c = ["B"] := by simpa [witGraphSccs] using hc
    have hv2 : v = "A" ∨ v = "B" := by
      rw [witGraphNames_eq] at hv
      simpa using hv
    rcases hc2 with rfl | rfl
    · rw [List.mem_singleton] at hu
      subst hu
      rcases hv2 with rfl | rfl
      · simp
      · exact absurd (hAonly _ hsame.1) (by decide)
    · rw [List.mem_singleton] at hu
      subst hu
      rcases hv2 with rfl | rfl
      · exact absurd (hAonly _ hsame.2) (by decide)
      · simp

/-- Witness for C2: on the concrete acyclic two item schema, the partition
hypothesis holds, build succeeds, and the theorem yields that no two
distinct items are mutually reachable and no self-edge exists. -/
theorem configGraph_build_spec_witness :
    (∃ g, ConfigGraph.build witGraphItems witGraphSccs = .ok g) ∧
    ¬ sameSCC (graphEdges witGraphItems) "A" "B" ∧
    ("A", "A") ∉ graphEdges witGraphItems := by
  have h := (configGraph_build_spec witGraphItems witGraphSccs witGraphPartition).1
  have hok : ∃ g, ConfigGraph.build witGraphItems witGraphSccs = .ok g :=
    ⟨graphEdges witGraphItems, rfl⟩
  refine ⟨hok, ?_, ?_⟩
  · exact (h.mp hok).1 "A" "B" (by decide) (by decide) (by decide)
  · exact (h.mp hok).2 "A"

/-! Claims C5 and C1: the evaluator contract and the visibility policies. -/

/-- C5: check_dependency returns Ok true on an empty or whitespace-only
expression regardless of evaluator and context; otherwise a boolean result
passes through unchanged, a nonzero integer coerces to true, a zero integer
to false, and any other value to false. -/
theorem check_dependency_spec (f : EvalFn) (ctx : List (String × EvalValue))
    (expr : String) :
    (trimIsEmpty expr = true → check_dependency f ctx expr = .ok true) ∧
    (trimIsEmpty expr = false →
      (∀ b, f ctx expr = .ok (.boolean b) → check_dependency f ctx expr = .ok b) ∧
      (∀ i, f ctx expr = .ok (.int i) → i ≠ 0 → check_dependency f ctx expr = .ok true) ∧
      (∀ i, f ctx expr = .ok (.int i) → i = 0 → check_dependency f ctx expr = .ok false) ∧
      (∀ v, f ctx expr = .ok v → (∀ b, v ≠ .boolean b) → (∀ i, v ≠ .int i) →
        check_dependency f ctx expr = .ok false)) := by
  constructor
  · intro he
    unfold check_dependency
    rw [if_pos he]
  · intro he
    have hne : ¬ (trimIsEmpty expr = true) := by
      rw [he]
      exact Bool.false_ne_true
    refine ⟨?_, ?_, ?_, ?_⟩
    · intro b hb
      unfold check_dependency
      rw [if_neg hne, hb]
    · intro i hi hnz
      unfold check_dependency
      rw [if_neg hne, hi]
      simp [bne_eq_false_iff_eq, hnz]
    · intro i hi hz
      unfold check_dependency
      rw [if_neg hne, hi]
      simp [hz]
    · intro v hv hb hi
      unfold check_dependency
      rw [if_neg hne, hv]
      cases v with
      | boolean b => exact absurd rfl (hb b)
      | int i => exact absurd rfl (hi i)
      | str s => rfl
      | other t => rfl

/-- Evaluator model that always yields the integer five, used to exercise
check_dependency away from the blank case. -/
def constFiveEval : EvalFn := fun _ _ => .ok (.int 5)

/-- Witness for C5: a whitespace-only expression yields true, and a nonzero
integer evaluation result coerces to true. -/
theorem check_dependency_spec_witness :
    check_dependency constFiveEval [] "  " = .ok true ∧
    check_dependency constFiveEval [] "A" = .ok true :=
  ⟨(check_dependency_spec constFiveEval [] "  ").1 (by decide),
   ((check_dependency_spec constFiveEval [] "A").2 (by decide)).2.1 5 rfl (by decide)⟩

/-- Evaluator model in which every evaluation fails, as evalexpr does on an
unresolved identifier or malformed expression. -/
def failingEval : EvalFn := fun _ _ => .error "Variable identifier is not bound"

/-- A bool item gated on a name that no context binds. -/
def witDepItem : ConfigItem :=
  ⟨"X", .bool, none, "X", some "MISSING", none, none, none, none, none⟩

/-- C1 counterexample: the visibility check AppState::is_visible of
tui/state.rs returns false, not true, when evaluation of the depends_on
expression fails, so the claim that every visibility check fails open is
refuted on this entry. -/
theorem appState_is_visible_fail_closed :
    AppState.is_visible failingEval [] witDepItem = false := by decide

/-- C1 (amended): the visibility checks of the App editor loop in tui/mod.rs
(is_visible_config for items and is_visible_node for child nodes) return
true whenever evaluation of the depends_on expression fails; the unused
AppState::is_visible of tui/state.rs instead fails closed. -/
theorem app_visibility_fail_open (f : EvalFn) (ctx : List (String × EvalValue)) :
    (∀ (config : ConfigItem) (expr e : String),
      config.depends_on = some expr → check_dependency f ctx expr = .error e →
      is_visible_config f ctx config = true) ∧
    (∀ (node : ConfigNode) (expr e : String),
      node.depends_on = some expr → check_dependency f ctx expr = .error e →
      is_visible_node f ctx node = true) ∧
    (∀ (item : ConfigItem) (expr e : String),
      item.depends_on = some expr → check_dependency f ctx expr = .error e →
      AppState.is_visible f ctx item = false) := by
  refine ⟨?_, ?_, ?_⟩
  · intro config expr e hdep hchk
    unfold is_visible_config
    rw [hdep]
    simp only [hchk]
  · intro node expr e hdep hchk
    unfold is_visible_node
    rw [hdep]
    simp only [hchk]
  · intro item expr e hdep hchk
    unfold AppState.is_visible
    rw [hdep]
    simp only [hchk]

/-- A child node gated on a name that no context binds. -/
def witDepNode : ConfigNode := .mk "sub" [] [] ["sub"] (some "MISSING")

/-- Witness for C1: under the always-failing evaluator both App checks
report the gated item and node visible, and the AppState check hides the
item. -/
theorem app_visibility_fail_open_witness :
    is_visible_config failingEval [] witDepItem = true ∧
    is_visible_node failingEval [] witDepNode = true ∧
    AppState.is_visible failingEval [] witDepItem = false := by
  have h := app_visibility_fail_open failingEval []
  refine ⟨?_, ?_, ?_⟩
  · exact h.1 witDepItem "MISSING" "Failed to evaluate expression: MISSING" rfl rfl
  · exact h.2.1 witDepNode "MISSING" "Failed to evaluate expression: MISSING" rfl rfl
  · exact h.2.2 witDepItem "MISSING" "Failed to evaluate expression: MISSING" rfl rfl

/-! Lookup characterizations for the value-map operations. -/

theorem lookupAL_eq_find?_map {α : Type} (l : List (String × α)) (k : String) :
    lookupAL l k = (l.find? (fun p => p.1 == k)).map Prod.snd := by
  induction l with
  | nil => rfl
  | cons hd t ih =>
    obtain ⟨k2, v2⟩ := hd
    by_cases hk : k2 = k
    · rw [lookupAL, if_pos hk]
      simp [List.find?, hk]
    · rw [lookupAL, if_neg hk, ih]
      have hbeq : (k2 == k) = false := beq_eq_false_iff_ne.mpr hk
      simp [List.find?, hbeq]

theorem find?_key_eq {α : Type} (l : List (String × α)) (k : String) (p : String × α)
    (h : l.find? (fun p2 => p2.1 == k) = some p) : p.1 = k := by
  have h2 := List.find?_some h
  simpa using h2

theorem find?_eq_some_of_mem_nodupKeys {α : Type} (l : List (String × α)) (k : String)
    (v : α) (hnd : (keysAL l).Nodup) (h : (k, v) ∈ l) :
    l.find? (fun p => p.1 == k) = some (k, v) := by
  have hl := lookupAL_eq_some_of_mem l k v hnd h
  rw [lookupAL_eq_find?_map] at hl
  cases hf : l.find? (fun p => p.1 == k) with
  | none =>
    rw [hf] at hl
    cases hl
  | some p =>
    rw [hf] at hl
    have h2 : p.2 = v := by
      injection hl
    have h1 : p.1 = k := find?_key_eq _ _ _ hf
    obtain ⟨a, b⟩ := p
    simp only at h1 h2
    rw [h1, h2]

theorem keyedFold_nodup {ι β : Type} (key : ι → String) (g : ι → Option β)
    (as : List ι) (init : List (String × β)) (hnd : (keysAL init).Nodup) :
    (keysAL (keyedFold key g as init)).Nodup := by
  induction as generalizing init with
  | nil => exact hnd
  | cons hd t ih =>
    rw [keyedFold_cons]
    cases hg : g hd with
    | none =>
      simp only [hg]
      exact ih _ hnd
    | some w =>
      simp only [hg]
      exact ih _ (keysAL_insert_nodup _ _ _ hnd)

theorem collect_defaults_lookup (items : List ConfigItem)
    (hnd : (itemNames items).Nodup) (n : String) :
    lookupAL (collect_defaults items) n =
      match items.find? (fun i => i.name == n) with
      | some i => i.default
      | none => none := by
  have hnd2 : (items.map ConfigItem.name).Nodup := by
    simpa [itemNames] using hnd
  rw [collect_defaults_eq_keyedFold, keyedFold_lookup ConfigItem.name ConfigItem.default items [] n hnd2]
  cases hfind : items.find? (fun i => i.name == n) with
  | none => rfl
  | some i =>
    simp only
    cases hdef : i.default with
    | none => rfl
    | some d => rfl

theorem find?_none_of_lookupAL_none {α : Type} (l : List (String × α)) (k : String)
    (h : lookupAL l k = none) : l.find? (fun p => p.1 == k) = none := by
  have h2 := lookupAL_eq_find?_map l k
  rw [h] at h2
  cases hf : l.find? (fun p => p.1 == k) with
  | none => rfl
  | some p =>
    rw [hf] at h2
    cases h2

theorem lookupAL_some_of_mem_keys {α : Type} (l : List (String × α)) (k : String)
    (hnd : (keysAL l).Nodup) (h : k ∈ keysAL l) : ∃ v, lookupAL l k = some v := by
  obtain ⟨p, hp, hpk⟩ := List.mem_map.mp h
  obtain ⟨a, b⟩ := p
  simp only at hpk
  subst hpk
  exact ⟨b, lookupAL_eq_some_of_mem l a b hnd hp⟩

/-- Lookup characterization of get_minimal_config on a present entry: the
entry survives exactly when its declared default (if any) differs from the
current value.  Shared backbone of the minimal-export claims. -/
theorem minimal_lookup_char (items : List ConfigItem)
    (current : List (String × TomlValue)) (hnd : (keysAL current).Nodup)
    (k : String) (v : TomlValue) (hmem : (k, v) ∈ current) :
    lookupAL (get_minimal_config current items) k =
      if lookupAL (collect_defaults items) k = some v then none else some v := by
  have hnd2 : (current.map Prod.fst).Nodup := by simpa [keysAL] using hnd
  have hfind := find?_eq_some_of_mem_nodupKeys current k v hnd hmem
  rw [get_minimal_config_eq_keyedFold,
    keyedFold_lookup Prod.fst (minimalStep (collect_defaults items)) current [] k hnd2,
    hfind]
  simp only
  unfold minimalStep
  simp only
  cases hd : lookupAL (collect_defaults items) k with
  | none =>
    simp only
    rw [if_neg (fun he => Option.noConfusion he)]
  | some d =>
    simp only
    by_cases hvd : v = d
    · subst hvd
      rw [if_neg (fun h2 => h2 rfl), if_pos rfl]
      rfl
    · rw [if_pos hvd, if_neg (fun he => hvd (Option.some_inj.mp he).symm)]

/-- Keys absent from the current map are absent from the minimal export. -/
theorem minimal_lookup_none (items : List ConfigItem)
    (current : List (String × TomlValue)) (k : String)
    (h : k ∉ keysAL current) :
    lookupAL (get_minimal_config current items) k = none := by
  rw [get_minimal_config_eq_keyedFold,
    keyedFold_lookup_of_not_mem Prod.fst (minimalStep (collect_defaults items)) current [] k
      (by simpa [keysAL] using h)]
  rfl

/-- C10: get_minimal_config keeps every current entry whose item declares no
default (and every entry naming no declared item, both cases being exactly a
miss in collect_defaults), and drops an entry exactly when the declared
default equals the current value. -/
theorem get_minimal_config_spec (items : List ConfigItem)
    (current : List (String × TomlValue)) (hnd : (keysAL current).Nodup)
    (k : String) (v : TomlValue) (hmem : (k, v) ∈ current) :
    (lookupAL (collect_defaults items) k = none →
      lookupAL (get_minimal_config current items) k = some v) ∧
    (lookupAL (get_minimal_config current items) k = none ↔
      lookupAL (collect_defaults items) k = some v) := by
  have hmain := minimal_lookup_char items current hnd k v hmem
  constructor
  · intro hnone
    rw [hmain, if_neg (fun he => by rw [hnone] at he; cases he)]
  · constructor
    · intro hz
      by_cases hd : lookupAL (collect_defaults items) k = some v
      · exact hd
      · rw [hmain, if_neg hd] at hz
        cases hz
    · intro hd
      rw [hmain, if_pos hd]

/-- Items of the minimal-export example in the specification: A defaults to
true, B defaults to ten. -/
def witMinItems : List ConfigItem :=
  [⟨"A", .bool, some (.boolean true), "A", none, none, none, none, none, none⟩,
   ⟨"B", .int, some (.integer 10), "B", none, none, none, none, none, none⟩]

/-- Current values of the minimal-export example: A flipped to false, B at
its default. -/
def witCurrent : List (String × TomlValue) :=
  [("A", .boolean false), ("B", .integer 10)]

/-- Witness for C10: in the concrete example the changed entry A survives
the minimal export and the at-default entry B is omitted. -/
theorem get_minimal_config_spec_witness :
    lookupAL (get_minimal_config witCurrent witMinItems) "B" = none ∧
    ¬ lookupAL (get_minimal_config witCurrent witMinItems) "A" = none := by
  constructor
  · exact (get_minimal_config_spec witMinItems witCurrent (by decide) "B" (.integer 10)
      (by decide)).2.mpr (by decide)
  · intro hz
    have h2 := (get_minimal_config_spec witMinItems witCurrent (by decide) "A"
      (.boolean false) (by decide)).2.mp hz
    revert h2
    decide

/-- C4: for a current map that covers every defaulted item and whose entries
all name declared items and validate, the minimal export keeps exactly the
entries that differ from their declared default, and loading the minimal
export against the same schema reconstructs the current map, defaults
filling every omitted key. -/
theorem minimal_roundtrip (rm : String → String → Option Bool) (items : List ConfigItem)
    (current : List (String × TomlValue))
    (hndItems : (itemNames items).Nodup)
    (hndCur : (keysAL current).Nodup)
    (hcov : ∀ i ∈ items, ∀ d, i.default = some d → ∃ v, (i.name, v) ∈ current)
    (hval : ∀ kv ∈ current, ∃ i, items.find? (fun j => j.name == kv.1) = some i ∧
        validate rm i kv.2 = .ok ()) :
    (∀ k v, (k, v) ∈ current →
      lookupAL (get_minimal_config current items) k =
        if lookupAL (collect_defaults items) k = some v then none else some v) ∧
    (∀ k, lookupAL (load_config rm items (get_minimal_config current items)) k =
        lookupAL current k) := by
  have hndMin : (keysAL (get_minimal_config current items)).Nodup := by
    rw [get_minimal_config_eq_keyedFold]
    exact keyedFold_nodup _ _ _ _ (by simp [keysAL])
  have hndMin2 : ((get_minimal_config current items).map Prod.fst).Nodup := by
    simpa [keysAL] using hndMin
  refine ⟨fun k v hmem => minimal_lookup_char items current hndCur k v hmem, ?_⟩
  intro k
  rw [load_config_eq_keyedFold,
    keyedFold_lookup Prod.fst (loadStep rm items) (get_minimal_config current items)
      (collect_defaults items) k hndMin2]
  cases hcur : lookupAL current k with
  | some v =>
    have hmem := mem_of_lookupAL_eq_some _ _ _ hcur
    have hmin := minimal_lookup_char items current hndCur k v hmem
    by_cases hdef : lookupAL (collect_defaults items) k = some v
    · have hminNone : lookupAL (get_minimal_config current items) k = none := by
        rw [hmin, if_pos hdef]
      rw [find?_none_of_lookupAL_none _ _ hminNone]
      simp only
      exact hdef
    · have hminSome : lookupAL (get_minimal_config current items) k = some v := by
        rw [hmin, if_neg hdef]
      have hfindSome := find?_eq_some_of_mem_nodupKeys _ k v hndMin
        (mem_of_lookupAL_eq_some _ _ _ hminSome)
      rw [hfindSome]
      simp only
      obtain ⟨i, hif, hiv⟩ := hval (k, v) hmem
      unfold loadStep
      simp only
      rw [hif]
      simp only
      rw [hiv]
  | none =>
    have hnk : k ∉ keysAL current := by
      intro hk
      obtain ⟨v, hv⟩ := lookupAL_some_of_mem_keys current k hndCur hk
      rw [hcur] at hv
      cases hv
    have hminNone : lookupAL (get_minimal_config current items) k = none :=
      minimal_lookup_none items current k hnk
    rw [find?_none_of_lookupAL_none _ _ hminNone]
    simp only
    rw [collect_defaults_lookup items hndItems k]
    cases hfind : items.find? (fun i => i.name == k) with
    | none => rfl
    | some i =>
      simp only
      cases hd : i.default with
      | none => rfl
      | some d =>
        exfalso
        have hik : i.name = k := by
          have h2 := List.find?_some hfind
          simpa using h2
        obtain ⟨v, hvmem⟩ := hcov i (List.mem_of_find?_eq_some hfind) d hd
        rw [hik] at hvmem
        have h3 := lookupAL_eq_some_of_mem current k v hndCur hvmem
        rw [hcur] at h3
        cases h3

/-- Regex oracle used by the concrete witnesses; no item in them carries a
pattern, so its verdict is irrelevant. -/
def noRegex : String → String → Option Bool := fun _ _ => none

/-- Witness for C4: on the specification example (defaults A true and B ten,
current A false and B ten) the reload of the minimal export restores the
current map. -/
theorem minimal_roundtrip_witness :
    lookupAL (load_config noRegex witMinItems (get_minimal_config witCurrent witMinItems))
        "A" = some (.boolean false) ∧
    lookupAL (load_config noRegex witMinItems (get_minimal_config witCurrent witMinItems))
        "B" = some (.integer 10) := by
  have hcov : ∀ i ∈ witMinItems, ∀ d, i.default = some d →
      ∃ v, (i.name, v) ∈ witCurrent := by
    intro i hi d hd
    have hi2 : i = witMinItems[0] ∨ i = witMinItems[1] := by
      simpa [witMinItems] using hi
    rcases hi2 with rfl | rfl
    · exact ⟨.boolean false, by decide⟩
    · exact ⟨.integer 10, by decide⟩
  have hval : ∀ kv ∈ witCurrent, ∃ i,
      witMinItems.find? (fun j => j.name == kv.1) = some i ∧
      validate noRegex i kv.2 = .ok () := by
    intro kv hkv
    have hkv2 : kv = ("A", TomlValue.boolean false) ∨ kv = ("B", TomlValue.integer 10) := by
      simpa [witCurrent] using hkv
    rcases hkv2 with rfl | rfl
    · exact ⟨witMinItems[0], by decide, rfl⟩
    · exact ⟨witMinItems[1], by decide, rfl⟩
  have h := (minimal_roundtrip noRegex witMinItems witCurrent (by decide) (by decide)
    hcov hval).2
  constructor
  · rw [h "A"]
    decide
  · rw [h "B"]
    decide

/-- C7: a persisted entry that names a declared item but fails its
validation is dropped: the loaded map keeps the declared default for that
key (no entry when the item declares none), and when the declared default
itself validates the invalid value cannot appear in the loaded map. -/
theorem load_config_drops_invalid (rm : String → String → Option Bool)
    (items : List ConfigItem) (parsed : List (String × TomlValue))
    (hndItems : (itemNames items).Nodup)
    (hndParsed : (keysAL parsed).Nodup)
    (k : String) (v : TomlValue) (item : ConfigItem)
    (hmem : (k, v) ∈ parsed)
    (hfind : items.find? (fun i => i.name == k) = some item)
    (hinv : validate rm item v ≠ .ok ()) :
    lookupAL (load_config rm items parsed) k = item.default ∧
    ((∀ d, item.default = some d → validate rm item d = .ok ()) →
      lookupAL (load_config rm items parsed) k ≠ some v) := by
  have hndParsed2 : (parsed.map Prod.fst).Nodup := by
    simpa [keysAL] using hndParsed
  have h1 : lookupAL (load_config rm items parsed) k = item.default := by
    rw [load_config_eq_keyedFold,
      keyedFold_lookup Prod.fst (loadStep rm items) parsed (collect_defaults items) k
        hndParsed2,
      find?_eq_some_of_mem_nodupKeys parsed k v hndParsed hmem]
    simp only
    unfold loadStep
    simp only
    rw [hfind]
    simp only
    cases hv : validate rm item v with
    | ok u =>
      cases u
      exact absurd hv hinv
    | error e =>
      simp only
      rw [collect_defaults_lookup items hndItems k, hfind]
  refine ⟨h1, fun hdval hsome => ?_⟩
  rw [h1] at hsome
  have h2 := hdval v hsome
  exact hinv h2

/-- A declared integer item with range one to sixty five thousand and a
default of eighty, as in the schema.rs validation test. -/
def witPortItem : ConfigItem :=
  ⟨"PORT", .int, some (.integer 80), "Port", none, none, none, none,
    some (1, 65535), none⟩

/-- Witness for C7: the persisted override PORT zero violates the range, is
dropped, and the loaded map keeps the default eighty. -/
theorem load_config_drops_invalid_witness :
    lookupAL (load_config noRegex [witPortItem] [("PORT", TomlValue.integer 0)])
        "PORT" = some (.integer 80) ∧
    ¬ lookupAL (load_config noRegex [witPortItem] [("PORT", TomlValue.integer 0)])
        "PORT" = some (.integer 0) := by
  have h := load_config_drops_invalid noRegex [witPortItem]
    [("PORT", TomlValue.integer 0)] (by decide) (by decide) "PORT"
    (TomlValue.integer 0) witPortItem (by decide) (by decide)
    (fun he => by cases he)
  refine ⟨?_, ?_⟩
  · rw [h.1]
    rfl
  · exact h.2 (fun d hd => by
      obtain rfl : TomlValue.integer 80 = d := by injection hd
      rfl)

/-! Embedding of the tui/mod.rs editor state machine. -/

/-- tui/mod.rs Editor: the in-progress edit session. -/
structure Editor : Type where
  config : ConfigItem
  input : String
  choice_selected : Option Nat
deriving DecidableEq

/-- tui/mod.rs App together with its UiState.  The evaluator is represented
by its context; crossterm ListState is represented by its selected index.
The config_path is carried only to reproduce notification texts, and the
file side of save is returned explicitly by the save model. -/
structure App : Type where
  root_node : ConfigNode
  values : List (String × TomlValue)
  config_path : String
  flattened_items : List ConfigItem
  is_dirty : Bool
  evalCtx : List (String × EvalValue)
  current_node_path : List Nat
  list_selected : Option Nat
  notification : Option String
  show_quit_confirm : Bool
  editor : Option Editor

/-- tui/mod.rs App::update_evaluator: replay every stored value into the
evaluator context. -/
def update_evaluator (app : App) : App :=
  { app with
    evalCtx := app.values.foldl (fun c nv => set_variable c nv.1 nv.2) app.evalCtx }

/-- Walk the navigation path; none models the panic of indexing a missing
child in App::get_current_node. -/
def getNodeAt : ConfigNode → List Nat → Option ConfigNode
  | n, [] => some n
  | n, i :: rest =>
    match n.children.get? i with
    | some c => getNodeAt c rest
    | none => none

/-- tui/mod.rs App::get_current_node. -/
def get_current_node (app : App) : Option ConfigNode :=
  getNodeAt app.root_node app.current_node_path

/-- tui/mod.rs App::get_visible_items: the visible items then the visible
children of the current node, in declared order. -/
def get_visible_items (f : EvalFn) (app : App) :
    Option (List ConfigItem × List ConfigNode) :=
  match get_current_node app with
  | none => none
  | some node =>
    some (node.configs.filter (fun c => is_visible_config f app.evalCtx c),
      node.children.filter (fun n => is_visible_node f app.evalCtx n))

/-- tui/mod.rs App::next: advance the cursor with wraparound over the
visible list. -/
def next (f : EvalFn) (app : App) : Option App :=
  match get_visible_items f app with
  | none => none
  | some (configs, children) =>
    let total := configs.length + children.length
    if total = 0 then some app
    else
      let i :=
        match app.list_selected with
        | some i => if i ≥ total - 1 then 0 else i + 1
        | none => 0
      some { app with list_selected := some i }

/-- tui/mod.rs App::previous. -/
def previous (f : EvalFn) (app : App) : Option App :=
  match get_visible_items f app with
  | none => none
  | some (configs, children) =>
    let total := configs.length + children.length
    if total = 0 then some app
    else
      let i :=
        match app.list_selected with
        | some i => if i = 0 then total - 1 else i - 1
        | none => 0
      some { app with list_selected := some i }

/-- Index in the full child list of the k-th visible child: the model of the
position-by-pointer-identity search in App::enter. -/
def nthVisibleIndex (vis : ConfigNode → Bool) (children : List ConfigNode)
    (k : Nat) : Option Nat :=
  ((children.enum.filter (fun p => vis p.2)).get? k).map Prod.fst

/-- tui/mod.rs App::enter: descend into the selected visible child node. -/
def enter (f : EvalFn) (app : App) : Option App :=
  let selected := app.list_selected.getD 0
  match get_visible_items f app with
  | none => none
  | some (configs, children) =>
    if selected ≥ configs.length then
      match children.get? (selected - configs.length) with
      | some _ =>
        match get_current_node app with
        | none => none
        | some parent =>
          match
            nthVisibleIndex (fun n => is_visible_node f app.evalCtx n) parent.children
              (selected - configs.length) with
          | some idx =>
            some { app with
              current_node_path := app.current_node_path ++ [idx],
              list_selected := some 0 }
          | none => some app
      | none => some app
    else some app

/-- tui/mod.rs App::back: pop one navigation step, no-op at the root. -/
def back (app : App) : App :=
  if app.current_node_path.isEmpty then app
  else
    { app with
      current_node_path := app.current_node_path.dropLast,
      list_selected := some 0 }

/-- tui/mod.rs App::toggle_bool: on a Bool item flip the stored value, mark
dirty and resynchronize the evaluator; on the other item kinds open the
matching edit session. -/
def toggle_bool (f : EvalFn) (app : App) : Option App :=
  let selected := app.list_selected.getD 0
  match get_visible_items f app with
  | none => none
  | some (visible_configs, _) =>
    match visible_configs.get? selected with
    | none => some app
    | some config =>
      match config.config_type with
      | .bool =>
        let current_val :=
          match lookupAL app.values config.name with
          | some (.boolean b) => b
          | _ => false
        some (update_evaluator
          { app with
            values := insertAL app.values config.name (.boolean (!current_val)),
            is_dirty := true })
      | .int | .hex | .string =>
        let input :=
          match lookupAL app.values config.name with
          | some (.integer i) => toString i
          | some (.str s) => s
          | some _ => ""
          | none => ""
        some { app with editor := some ⟨config, input, none⟩ }
      | .choice => some { app with editor := some ⟨config, "", some 0⟩ }

/-- tui/mod.rs App::submit_choice: commit the option under the cursor as a
string value, mark dirty, resynchronize, notify. -/
def submit_choice (app : App) : App :=
  match app.editor with
  | none => app
  | some ed =>
    let app2 := { app with editor := none }
    match ed.config.options with
    | some options =>
      match ed.choice_selected with
      | some selected =>
        match options.get? selected with
        | some opt =>
          let app3 := update_evaluator
            { app2 with
              values := insertAL app2.values ed.config.name (.str opt),
              is_dirty := true }
          { app3 with notification := some ("Selected: " ++ opt) }
        | none => app2
      | none => app2
    | none => app2

/-- Accumulate base-digits of a nonempty digit sequence, none on any
non-digit; the value is the usual positional reading. -/
def digitsVal (base : Nat) (dv : Char → Option Nat) : List Char → Option Nat
  | [] => none
  | cs =>
    cs.foldl
      (fun acc c =>
        match acc, dv c with
        | some n, some d => some (n * base + d)
        | _, _ => none)
      (some 0)

/-- Decimal digit value. -/
def decDigit (c : Char) : Option Nat :=
  if c.isDigit then some (c.toNat - 48) else none

/-- Hexadecimal digit value, upper or lower case. -/
def hexDigit (c : Char) : Option Nat :=
  if c.isDigit then some (c.toNat - 48)
  else if 97 ≤ c.toNat ∧ c.toNat ≤ 102 then some (c.toNat - 87)
  else if 65 ≤ c.toNat ∧ c.toNat ≤ 70 then some (c.toNat - 55)
  else none

/-- Shared shape of i64 from_str / from_str_radix: an optional sign, a
nonempty run of digits of the base, and an i64 range check (overflow during
accumulation in Rust is equivalent to the mathematical value leaving the i64
range). -/
def parseSigned (base : Nat) (dv : Char → Option Nat) (s : String) : Option Int :=
  let signDigits : Int × List Char :=
    match s.data with
    | c :: rest =>
      if c = '+' then (1, rest) else if c = '-' then (-1, rest) else (1, s.data)
    | [] => (1, [])
  match digitsVal base dv signDigits.2 with
  | none => none
  | some n =>
    let val : Int := signDigits.1 * n
    if val < -(2 ^ 63) ∨ 2 ^ 63 ≤ val then none else some val

/-- Rust str::parse::<i64>, the Int commit path of submit_input. -/
def parse_i64 (s : String) : Option Int := parseSigned 10 decDigit s

/-- Rust i64::from_str_radix(_, 16), the Hex commit path of submit_input. -/
def from_str_radix16 (s : String) : Option Int := parseSigned 16 hexDigit s

/-- Rust str::starts_with for a literal prefix. -/
def strStartsWith (s pre : String) : Bool := pre.data.isPrefixOf s.data

/-- tui/mod.rs App::submit_input: end the edit session; parse the draft per
the target type; on success commit, mark dirty, resynchronize and notify; on
parse failure only notify.  Bool and Choice targets produce no value and no
notification. -/
def submit_input (app : App) : App :=
  match app.editor with
  | none => app
  | some ed =>
    let app2 := { app with editor := none }
    match ed.config.config_type with
    | .int =>
      match parse_i64 ed.input with
      | some i =>
        let app3 := update_evaluator
          { app2 with
            values := insertAL app2.values ed.config.name (.integer i),
            is_dirty := true }
        { app3 with notification := some "Value updated" }
      | none => { app2 with notification := some "Invalid integer" }
    | .hex =>
      let res :=
        if strStartsWith ed.input "0x" || strStartsWith ed.input "0X" then
          from_str_radix16 (String.mk (ed.input.data.drop 2))
        else from_str_radix16 ed.input
      match res with
      | some i =>
        let app3 := update_evaluator
          { app2 with
            values := insertAL app2.values ed.config.name (.integer i),
            is_dirty := true }
        { app3 with notification := some "Value updated" }
      | none => { app2 with notification := some "Invalid hex value" }
    | .string =>
      let app3 := update_evaluator
        { app2 with
          values := insertAL app2.values ed.config.name (.str ed.input),
          is_dirty := true }
      { app3 with notification := some "Value updated" }
    | _ => app2

/-- tui/mod.rs App::cancel_input. -/
def cancel_input (app : App) : App := { app with editor := none }

/-- tui/mod.rs App::save.  The file write is external: writeOk tells whether
it succeeds; the third component is the table handed to save_config (the
complete value store) when the write happens.  On failure the question-mark
operator returns early: the dirty flag and the notification are untouched. -/
def save (writeOk : Bool) (app : App) : App × Bool × Option (List (String × TomlValue)) :=
  if writeOk then
    ({ app with
        is_dirty := false,
        notification := some ("Config saved to " ++ app.config_path) },
      true, some app.values)
  else (app, false, none)

/-- Key codes relevant to the modelled handlers. -/
inductive Key : Type where
  | char (c : Char)
  | enter
  | esc
  | up
  | down
  | left
  | right
  | backspace
  | other
deriving DecidableEq

/-- tui/mod.rs App::handle_main_key; the returned flag is the should-quit
result, and the caller discards the Result of save.  none propagates the
panic cases of navigation. -/
def handle_main_key (f : EvalFn) (writeOk : Bool) (key : Key) (app : App) :
    Option (App × Bool) :=
  match key with
  | .char 'q' =>
    if app.is_dirty then some ({ app with show_quit_confirm := true }, false)
    else some (app, true)
  | .down | .char 'j' => (next f app).map (fun a => (a, false))
  | .up | .char 'k' => (previous f app).map (fun a => (a, false))
  | .enter | .right | .char 'l' => (enter f app).map (fun a => (a, false))
  | .esc | .left | .char 'h' => some (back app, false)
  | .char ' ' | .char 'y' | .char 'i' => (toggle_bool f app).map (fun a => (a, false))
  | .char 's' => some ((save writeOk app).1, false)
  | _ => some (app, false)

/-! Claims C6, C8, C9: evaluator resynchronization, parse-failure commits,
and the save action. -/

theorem mem_insertAL_cases {α : Type} (l : List (String × α)) (k : String) (v : α)
    (p : String × α) (h : p ∈ insertAL l k v) : p = (k, v) ∨ p ∈ l := by
  induction l with
  | nil =>
    simp only [insertAL, List.mem_singleton] at h
    exact Or.inl h
  | cons hd t ih =>
    obtain ⟨k3, v3⟩ := hd
    by_cases hk : k3 = k
    · simp only [insertAL] at h
      rw [if_pos hk] at h
      rcases List.mem_cons.mp h with h1 | h2
      · exact Or.inl h1
      · exact Or.inr (List.mem_cons_of_mem _ h2)
    · simp only [insertAL] at h
      rw [if_neg hk] at h
      rcases List.mem_cons.mp h with h1 | h2
      · exact Or.inr (h1 ▸ List.mem_cons_self _ _)
      · rcases ih h2 with h3 | h4
        · exact Or.inl h3
        · exact Or.inr (List.mem_cons_of_mem _ h4)

/-- The invariant the claim calls keeping the Evaluator Context current:
every stored value is mirrored into the context (scalars being all the Value
Store holds by its data-model invariant). -/
def evalMirrors (app : App) : Prop :=
  ∀ n v, (n, v) ∈ app.values →
    ∃ ev, tomlToEval v = some ev ∧ lookupAL app.evalCtx n = some ev

theorem update_evaluator_evalCtx (app : App) :
    (update_evaluator app).evalCtx =
      keyedFold Prod.fst (fun nv => tomlToEval nv.2) app.values app.evalCtx := by
  show app.values.foldl (fun c nv => set_variable c nv.1 nv.2) app.evalCtx = _
  unfold keyedFold
  apply List.foldl_ext
  intro c nv _
  unfold set_variable
  cases ht : tomlToEval nv.2 with
  | some ev => simp only [ht]
  | none => simp only [ht]

theorem update_evaluator_mirrors (app : App)
    (hnd : (keysAL app.values).Nodup)
    (hscalar : ∀ nv ∈ app.values, nv.2.isScalar = true) :
    evalMirrors (update_evaluator app) := by
  intro n v hmem
  have hsc : v.isScalar = true := hscalar (n, v) hmem
  have hev : ∃ ev, tomlToEval v = some ev := by
    cases v with
    | boolean b => exact ⟨.boolean b, rfl⟩
    | integer i => exact ⟨.int i, rfl⟩
    | str s => exact ⟨.str s, rfl⟩
    | other t => exact absurd hsc (by simp [TomlValue.isScalar])
  obtain ⟨ev, hev⟩ := hev
  refine ⟨ev, hev, ?_⟩
  show lookupAL (update_evaluator app).evalCtx n = some ev
  rw [update_evaluator_evalCtx,
    keyedFold_lookup Prod.fst (fun nv => tomlToEval nv.2) app.values app.evalCtx n
      (by simpa [keysAL] using hnd),
    find?_eq_some_of_mem_nodupKeys app.values n v hnd hmem]
  simp only
  rw [hev]

/-- C6: each committed editor mutation (boolean toggle, text commit, choice
commit) resynchronizes the evaluator context before returning, so the state
every later visibility computation reads already mirrors the whole value
store.  A commit is recognized by the dirty flag it sets; the non-committing
paths of the three handlers leave the flag untouched. -/
theorem mutation_resyncs_evaluator (f : EvalFn) (app : App)
    (hnd : (keysAL app.values).Nodup)
    (hscalar : ∀ nv ∈ app.values, nv.2.isScalar = true)
    (hclean : app.is_dirty = false) :
    (∀ app2, toggle_bool f app = some app2 → app2.is_dirty = true → evalMirrors app2) ∧
    (∀ app2, submit_input app = app2 → app2.is_dirty = true → evalMirrors app2) ∧
    (∀ app2, submit_choice app = app2 → app2.is_dirty = true → evalMirrors app2) := by
  have hinsert : ∀ (name : String) (v : TomlValue), v.isScalar = true →
      evalMirrors (update_evaluator
        { app with values := insertAL app.values name v, is_dirty := true }) := by
    intro name v hv
    apply update_evaluator_mirrors
    · exact keysAL_insert_nodup _ _ _ hnd
    · intro nv hnv
      rcases mem_insertAL_cases _ _ _ _ hnv with h1 | h2
      · rw [h1]
        exact hv
      · exact hscalar nv h2
  have hcontra : ∀ (b : Bool), b = app.is_dirty → b = true → False := by
    intro b hb ht
    rw [ht] at hb
    rw [hclean] at hb
    exact Bool.noConfusion hb.symm
  refine ⟨?_, ?_, ?_⟩
  · intro app2 htog hdirty
    unfold toggle_bool at htog
    cases hvi : get_visible_items f app with
    | none =>
      rw [hvi] at htog
      exact Option.noConfusion htog
    | some pair =>
      obtain ⟨visible_configs, vchildren⟩ := pair
      rw [hvi] at htog
      simp only at htog
      cases hg : visible_configs.get? (app.list_selected.getD 0) with
      | none =>
        rw [hg] at htog
        simp only at htog
        obtain rfl : app = app2 := Option.some_inj.mp htog
        exact absurd hdirty (fun h => hcontra app.is_dirty rfl h)
      | some config =>
        rw [hg] at htog
        simp only at htog
        cases hct : config.config_type with
        | bool =>
          rw [hct] at htog
          simp only at htog
          obtain rfl := Option.some_inj.mp htog
          exact hinsert config.name _ rfl
        | int =>
          rw [hct] at htog
          simp only at htog
          obtain rfl := Option.some_inj.mp htog
          exact absurd (show app.is_dirty = true from hdirty)
            (fun h => hcontra app.is_dirty rfl h)
        | hex =>
          rw [hct] at htog
          simp only at htog
          obtain rfl := Option.some_inj.mp htog
          exact absurd (show app.is_dirty = true from hdirty)
            (fun h => hcontra app.is_dirty rfl h)
        | string =>
          rw [hct] at htog
          simp only at htog
          obtain rfl := Option.some_inj.mp htog
          exact absurd (show app.is_dirty = true from hdirty)
            (fun h => hcontra app.is_dirty rfl h)
        | choice =>
          rw [hct] at htog
          simp only at htog
          obtain rfl := Option.some_inj.mp htog
          exact absurd (show app.is_dirty = true from hdirty)
            (fun h => hcontra app.is_dirty rfl h)
  · intro app2 hsub hdirty
    unfold submit_input at hsub
    cases hed : app.editor with
    | none =>
      rw [hed] at hsub
      simp only at hsub
      subst hsub
      exact absurd (show app.is_dirty = true from hdirty)
        (fun h => hcontra app.is_dirty rfl h)
    | some ed =>
      rw [hed] at hsub
      simp only at hsub
      cases hct : ed.config.config_type with
      | int =>
        rw [hct] at hsub
        simp only at hsub
        cases hp : parse_i64 ed.input with
        | some i =>
          rw [hp] at hsub
          simp only at hsub
          subst hsub
          exact hinsert ed.config.name _ rfl
        | none =>
          rw [hp] at hsub
          simp only at hsub
          subst hsub
          exact absurd (show app.is_dirty = true from hdirty)
            (fun h => hcontra app.is_dirty rfl h)
      | hex =>
        rw [hct] at hsub
        simp only at hsub
        cases hp : (if strStartsWith ed.input "0x" || strStartsWith ed.input "0X" then
            from_str_radix16 (String.mk (ed.input.data.drop 2))
          else from_str_radix16 ed.input) with
        | some i =>
          rw [hp] at hsub
          simp only at hsub
          subst hsub
          exact hinsert ed.config.name _ rfl
        | none =>
          rw [hp] at hsub
          simp only at hsub
          subst hsub
          exact absurd (show app.is_dirty = true from hdirty)
            (fun h => hcontra app.is_dirty rfl h)
      | string =>
        rw [hct] at hsub
        simp only at hsub
        subst hsub
        exact hinsert ed.config.name _ rfl
      | bool =>
        rw [hct] at hsub
        simp only at hsub
        subst hsub
        exact absurd (show app.is_dirty = true from hdirty)
          (fun h => hcontra app.is_dirty rfl h)
      | choice =>
        rw [hct] at hsub
        simp only at hsub
        subst hsub
        exact absurd (show app.is_dirty = true from hdirty)
          (fun h => hcontra app.is_dirty rfl h)
  · intro app2 hsub hdirty
    unfold submit_choice at hsub
    cases hed : app.editor with
    | none =>
      rw [hed] at hsub
      simp only at hsub
      subst hsub
      exact absurd (show app.is_dirty = true from hdirty)
        (fun h => hcontra app.is_dirty rfl h)
    | some ed =>
      rw [hed] at hsub
      simp only at hsub
      cases hop : ed.config.options with
      | none =>
        rw [hop] at hsub
        simp only at hsub
        subst hsub
        exact absurd (show app.is_dirty = true from hdirty)
          (fun h => hcontra app.is_dirty rfl h)
      | some options =>
        rw [hop] at hsub
        simp only at hsub
        cases hcs : ed.choice_selected with
        | none =>
          rw [hcs] at hsub
          simp only at hsub
          subst hsub
          exact absurd (show app.is_dirty = true from hdirty)
            (fun h => hcontra app.is_dirty rfl h)
        | some selected =>
          rw [hcs] at hsub
          simp only at hsub
          cases hgo : options.get? selected with
          | none =>
            rw [hgo] at hsub
            simp only at hsub
            subst hsub
            exact absurd (show app.is_dirty = true from hdirty)
              (fun h => hcontra app.is_dirty rfl h)
          | some opt =>
            rw [hgo] at hsub
            simp only at hsub
            subst hsub
            exact hinsert ed.config.name _ rfl

/-- Evaluator model that resolves a lone identifier through the context, the
fragment of evalexpr the witness expressions need; unknown names fail as
evalexpr does. -/
def lookupEval : EvalFn := fun ctx expr =>
  match lookupAL ctx expr with
  | some v => .ok v
  | none => .error "Variable identifier is not bound"

/-- A bool item FOO defaulting to false. -/
def witBoolItem : ConfigItem :=
  ⟨"FOO", .bool, some (.boolean false), "Foo", none, none, none, none, none, none⟩

/-- A bool item BAR visible only when FOO holds. -/
def witGateItem : ConfigItem :=
  ⟨"BAR", .bool, none, "Bar", some "FOO", none, none, none, none, none⟩

/-- Root menu carrying FOO and the FOO-gated BAR. -/
def witRoot : ConfigNode := .mk "Root" [witBoolItem, witGateItem] [] [] none

/-- Editor state before the toggle: FOO is false, the context mirrors it,
and the cursor rests on FOO (BAR being hidden). -/
def witApp6 : App :=
  ⟨witRoot, [("FOO", .boolean false)], ".config", [witBoolItem, witGateItem],
    false, [("FOO", .boolean false)], [], some 0, none, false, none⟩

/-- Editor state the toggle produces: FOO true, dirty, context resynced. -/
def witApp6Post : App :=
  ⟨witRoot, [("FOO", .boolean true)], ".config", [witBoolItem, witGateItem],
    true, [("FOO", .boolean true)], [], some 0, none, false, none⟩

/-- Witness for C6: toggling FOO commits true, the theorem yields the
mirrored context, and the gated item BAR is already visible in the very next
visibility computation. -/
theorem mutation_resyncs_evaluator_witness :
    toggle_bool lookupEval witApp6 = some witApp6Post ∧
    evalMirrors witApp6Post ∧
    is_visible_config lookupEval witApp6Post.evalCtx witGateItem = true := by
  have htog : toggle_bool lookupEval witApp6 = some witApp6Post := rfl
  refine ⟨htog, ?_, ?_⟩
  · exact (mutation_resyncs_evaluator lookupEval witApp6 (by decide) (by decide) rfl).1
      witApp6Post htog rfl
  · decide

/-- C8: when a text-edit confirm fails to parse (base ten for Int; base
sixteen with an optional 0x or 0X prefix stripped for Hex), submit_input
only sets the failure notification and ends the edit session: the value
store and the dirty flag of the state are left exactly as they were, no
value is committed. -/
theorem submit_input_parse_failure (app : App) (ed : Editor)
    (hed : app.editor = some ed) :
    (ed.config.config_type = .int → parse_i64 ed.input = none →
      submit_input app =
        { app with editor := none, notification := some "Invalid integer" }) ∧
    (ed.config.config_type = .hex →
      (if strStartsWith ed.input "0x" || strStartsWith ed.input "0X" then
          from_str_radix16 (String.mk (ed.input.data.drop 2))
        else from_str_radix16 ed.input) = none →
      submit_input app =
        { app with editor := none, notification := some "Invalid hex value" }) := by
  constructor
  · intro ht hp
    unfold submit_input
    rw [hed]
    simp only
    rw [ht]
    simp only
    rw [hp]
  · intro ht hp
    unfold submit_input
    rw [hed]
    simp only
    rw [ht]
    simp only
    rw [hp]

/-- An integer item used for the failing-commit witnesses. -/
def witIntItem : ConfigItem :=
  ⟨"N", .int, none, "N", none, none, none, none, none, none⟩

/-- A hex item used for the failing-commit witnesses. -/
def witHexItem : ConfigItem :=
  ⟨"H", .hex, none, "H", none, none, none, none, none, none⟩

/-- Editing state with an unparseable integer draft. -/
def witApp8 : App :=
  ⟨.mk "Root" [witIntItem] [] [] none, [("N", .integer 3)], ".config",
    [witIntItem], false, [("N", .int 3)], [], some 0, none, false,
    some ⟨witIntItem, "abc", none⟩⟩

/-- Editing state with an unparseable hex draft. -/
def witApp8h : App :=
  ⟨.mk "Root" [witHexItem] [] [] none, [("H", .integer 3)], ".config",
    [witHexItem], false, [("H", .int 3)], [], some 0, none, false,
    some ⟨witHexItem, "0xZZ", none⟩⟩

/-- Witness for C8: confirming the drafts abc (Int) and 0xZZ (Hex) ends the
session with only a notification; values and dirty flag are untouched. -/
theorem submit_input_parse_failure_witness :
    submit_input witApp8 =
      { witApp8 with editor := none, notification := some "Invalid integer" } ∧
    (submit_input witApp8).values = witApp8.values ∧
    (submit_input witApp8).is_dirty = false ∧
    submit_input witApp8h =
      { witApp8h with editor := none, notification := some "Invalid hex value" } := by
  have h1 := (submit_input_parse_failure witApp8 ⟨witIntItem, "abc", none⟩ rfl).1
    rfl (by decide)
  have h2 := (submit_input_parse_failure witApp8h ⟨witHexItem, "0xZZ", none⟩ rfl).2
    rfl (by decide)
  refine ⟨h1, ?_, ?_, h2⟩
  · rw [h1]
  · rw [h1]
    rfl

/-- C9 (amended): triggering save from the main handler persists the
complete value store, clears the dirty flag and opens a notification when
the write succeeds; when the write fails the error is discarded by the
caller, nothing is persisted, and the dirty flag and notification are left
unchanged. -/
theorem save_key_spec (f : EvalFn) (app : App) :
    (handle_main_key f true (.char 's') app =
        some ({ app with
          is_dirty := false,
          notification := some ("Config saved to " ++ app.config_path) }, false) ∧
      (save true app).2.2 = some app.values) ∧
    (handle_main_key f false (.char 's') app = some (app, false) ∧
      (save false app).2.2 = none) :=
  ⟨⟨rfl, rfl⟩, ⟨rfl, rfl⟩⟩

/-- A dirty non-overlay editor state awaiting a save. -/
def witApp9 : App :=
  ⟨.mk "Root" [] [] [] none, [("A", .boolean true)], ".config", [], true,
    [("A", .boolean true)], [], some 0, none, false, none⟩

/-- C9 counterexample: with a failing write, the save action returns the
state unchanged: the dirty flag is still set and no notification is opened,
refuting the claim that both happen in the write-failure case as well. -/
theorem save_failure_counterexample :
    handle_main_key constFiveEval false (.char 's') witApp9 = some (witApp9, false) ∧
    witApp9.is_dirty = true ∧ witApp9.notification = none :=
  ⟨rfl, rfl, rfl⟩

/-! Embedding of the parser.rs build_config_tree assembly phase.  The
directory scan and toml deserialization are I/O (external): their outcome is
the node map keyed by relative path, each node carrying its data with an
empty child list.  Paths are component lists; the root path is the empty
list.  The BTreeMap is an association list in its iteration order; every
claim property is independent of that order. -/

/-- Relative directory path as components. -/
abbrev RelPath : Type := List String

/-- Lookup in the node map. -/
def lookupNP : List (RelPath × ConfigNode) → RelPath → Option ConfigNode
  | [], _ => none
  | (q, n) :: t, p => if q = p then some n else lookupNP t p

/-- BTreeMap::remove returning the removed node and the remaining map; none
when the key is absent (the source unwraps, a panic). -/
def extractNP : List (RelPath × ConfigNode) → RelPath → Option (ConfigNode × List (RelPath × ConfigNode))
  | [], _ => none
  | (q, n) :: t, p =>
    if q = p then some (n, t)
    else
      match extractNP t p with
      | some (r, t2) => some (r, (q, n) :: t2)
      | none => none

/-- Append one child to a node. -/
def ConfigNode.addChild : ConfigNode → ConfigNode → ConfigNode
  | .mk d cfg ch p dep, c => .mk d cfg (ch ++ [c]) p dep

/-- Push a child onto the node stored at the given key (get_mut followed by
children.push); identity when the key is absent. -/
def pushChildNP : List (RelPath × ConfigNode) → RelPath → ConfigNode → List (RelPath × ConfigNode)
  | [], _, _ => []
  | (q2, n) :: t, q, c =>
    if q2 = q then (q2, n.addChild c) :: t else (q2, n) :: pushChildNP t q c

/-- BTreeMap::insert on the node map. -/
def insertNP : List (RelPath × ConfigNode) → RelPath → ConfigNode → List (RelPath × ConfigNode)
  | [], p, c => [(p, c)]
  | (q, n) :: t, p, c =>
    if q = p then (p, c) :: t else (q, n) :: insertNP t p c

/-- Keys of the node map. -/
def keysNP (m : List (RelPath × ConfigNode)) : List RelPath := m.map Prod.fst

/-- PathBuf::parent within a relative path: drop the last component. -/
def parentP (p : RelPath) : RelPath := p.dropLast

/-- The parent-walk loop of build_config_tree: starting from a candidate
parent path, walk upward while the path is nonempty and not a key of the
map. -/
def findAnc (m : List (RelPath × ConfigNode)) (q : RelPath) : RelPath :=
  if hq : q = [] then []
  else if (lookupNP m q).isSome then q
  else findAnc m (parentP q)
termination_by q.length
decreasing_by
  simp only [parentP]
  rcases q with _ | ⟨a, t⟩
  · exact absurd rfl hq
  · rw [List.length_dropLast]
    simp

/-- The same walk over a plain key list: the nearest proper ancestor of the
claim, empty when no ancestor path is present. -/
def specAncAux (keys : List RelPath) (q : RelPath) : RelPath :=
  if hq : q = [] then []
  else if q ∈ keys then q
  else specAncAux keys (parentP q)
termination_by q.length
decreasing_by
  simp only [parentP]
  rcases q with _ | ⟨a, t⟩
  · exact absurd rfl hq
  · rw [List.length_dropLast]
    simp

/-- Nearest ancestor of p present in the key set, or the root when none is. -/
def specAnc (keys : List RelPath) (p : RelPath) : RelPath := specAncAux keys (parentP p)

/-- Stable sort of the key list by component count descending, realized as
depth buckets in original (BTreeMap) order: exactly what
sort_by_key(Reverse(components count)) produces. -/
def sortPathsDepthDesc (ps : List RelPath) : List RelPath :=
  let n := ps.foldr (fun p acc => max p.length acc) 0
  (List.range (n + 1)).reverse.flatMap (fun d => ps.filter (fun p => p.length = d))

/-- One iteration of the assembly loop of build_config_tree: skip the root
path; otherwise remove the node, walk to the nearest ancestor still in the
map, and either push the node under that ancestor, or (dead guard kept from
the source) under the root, or reinsert it at its own path. -/
def stepAttach (m : List (RelPath × ConfigNode)) (p : RelPath) :
    Option (List (RelPath × ConfigNode)) :=
  if p = [] then some m
  else
    match extractNP m p with
    | none => none
    | some (current, m2) =>
      let q := findAnc m2 (parentP p)
      match lookupNP m2 q with
      | some _ => some (pushChildNP m2 q current)
      | none =>
        if q = [] ∧ (lookupNP m2 []).isSome then
          some (pushChildNP m2 [] current)
        else some (insertNP m2 p current)

/-- parser.rs build_config_tree, from the scanned node map onward: process
the paths deepest first, then remove and return the node at the empty path,
a missing-root error when there is none.  The outer Option propagates the
panic branch of the loop (provably unreachable). -/
def build_config_tree (m0 : List (RelPath × ConfigNode)) :
    Option (Except String ConfigNode) :=
  let order := sortPathsDepthDesc (keysNP m0)
  match order.foldlM stepAttach m0 with
  | none => none
  | some m =>
    some
      (match extractNP m [] with
      | some (root, _) => .ok root
      | none => .error "No root Kconfig.toml found in the root directory")

/-- The data tuple of one node: path, title, items, node dependency. -/
abbrev PTuple : Type := RelPath × String × List ConfigItem × Option String

mutual

/-- All data tuples in a subtree, the node itself first. -/
def flattenNode : ConfigNode → List PTuple
  | .mk d cfg ch p dep => (p, d, cfg, dep) :: flattenNodes ch

/-- All data tuples in a forest. -/
def flattenNodes : List ConfigNode → List PTuple
  | [] => []
  | c :: cs => flattenNode c ++ flattenNodes cs

end

mutual

/-- All parent-child edges in a subtree, as path pairs. -/
def edgesOfNode : ConfigNode → List (RelPath × RelPath)
  | .mk _ _ ch p _ => ch.map (fun c => (p, c.path)) ++ edgesOfNodes ch

/-- All parent-child edges in a forest. -/
def edgesOfNodes : List ConfigNode → List (RelPath × RelPath)
  | [] => []
  | c :: cs => edgesOfNode c ++ edgesOfNodes cs

end

/-- All data tuples held anywhere in the node map. -/
def flattenMap (m : List (RelPath × ConfigNode)) : List PTuple :=
  m.flatMap (fun e => flattenNode e.2)

/-- All parent-child edges held anywhere in the node map. -/
def edgesMap (m : List (RelPath × ConfigNode)) : List (RelPath × RelPath) :=
  m.flatMap (fun e => edgesOfNode e.2)

/-- Data tuple of a map entry as scanned: the node before assembly. -/
def tupleOf (e : RelPath × ConfigNode) : PTuple :=
  (e.1, e.2.desc, e.2.configs, e.2.depends_on)

instance : Inhabited ConfigNode := ⟨.mk "" [] [] [] none⟩

theorem keysNP_cons (q : RelPath) (n : ConfigNode) (t : List (RelPath × ConfigNode)) :
    keysNP ((q, n) :: t) = q :: keysNP t := rfl

theorem keysNP_append (a b : List (RelPath × ConfigNode)) :
    keysNP (a ++ b) = keysNP a ++ keysNP b := List.map_append _ _ _

theorem lookupNP_isSome_iff_mem (m : List (RelPath × ConfigNode)) (p : RelPath) :
    (lookupNP m p).isSome = true ↔ p ∈ keysNP m := by
  induction m with
  | nil => simp [lookupNP, keysNP]
  | cons hd t ih =>
    obtain ⟨q, n⟩ := hd
    rw [keysNP_cons]
    by_cases hq : q = p
    · subst hq
      simp [lookupNP]
    · rw [lookupNP, if_neg hq, ih]
      constructor
      · intro h
        exact List.mem_cons.mpr (Or.inr h)
      · intro h
        rcases List.mem_cons.mp h with h1 | h2
        · exact absurd h1.symm hq
        · exact h2

theorem extractNP_spec (m : List (RelPath × ConfigNode)) (p : RelPath)
    (c : ConfigNode) (m2 : List (RelPath × ConfigNode))
    (h : extractNP m p = some (c, m2)) :
    ∃ pre post, m = pre ++ (p, c) :: post ∧ m2 = pre ++ post ∧ p ∉ keysNP pre := by
  induction m generalizing m2 with
  | nil => cases h
  | cons hd t ih =>
    obtain ⟨q, n⟩ := hd
    by_cases hq : q = p
    · subst hq
      simp only [extractNP, if_pos rfl] at h
      injection h with h2
      injection h2 with h3 h4
      subst h3
      subst h4
      exact ⟨[], t, rfl, rfl, by simp [keysNP]⟩
    · simp only [extractNP, if_neg hq] at h
      cases he : extractNP t p with
      | none =>
        rw [he] at h
        cases h
      | some pr =>
        obtain ⟨r, t2⟩ := pr
        rw [he] at h
        simp only at h
        injection h with h2
        injection h2 with h3 h4
        subst h3
        subst h4
        obtain ⟨pre, post, h1, h2b, h3b⟩ := ih t2 he
        refine ⟨(q, n) :: pre, post, ?_, ?_, ?_⟩
        · rw [h1, List.cons_append]
        · rw [h2b, List.cons_append]
        · rw [keysNP_cons]
          intro hmem
          rcases List.mem_cons.mp hmem with h5 | h6
          · exact hq h5.symm
          · exact h3b h6

theorem extractNP_isSome (m : List (RelPath × ConfigNode)) (p : RelPath)
    (h : p ∈ keysNP m) : ∃ c m2, extractNP m p = some (c, m2) := by
  induction m with
  | nil => simp [keysNP] at h
  | cons hd t ih =>
    obtain ⟨q, n⟩ := hd
    by_cases hq : q = p
    · subst hq
      exact ⟨n, t, by simp [extractNP]⟩
    · rw [keysNP_cons] at h
      rcases List.mem_cons.mp h with h1 | h2
      · exact absurd h1.symm hq
      · obtain ⟨c, m2, he⟩ := ih h2
        refine ⟨c, (q, n) :: m2, ?_⟩
        simp only [extractNP, if_neg hq, he]

theorem pushChildNP_keys (m : List (RelPath × ConfigNode)) (q : RelPath)
    (c : ConfigNode) : keysNP (pushChildNP m q c) = keysNP m := by
  induction m with
  | nil => rfl
  | cons hd t ih =>
    obtain ⟨q2, n⟩ := hd
    by_cases hq : q2 = q
    · simp [pushChildNP, if_pos hq, keysNP]
    · simp only [pushChildNP, if_neg hq]
      rw [keysNP_cons, keysNP_cons, ih]

theorem pushChildNP_spec (m : List (RelPath × ConfigNode)) (q : RelPath)
    (c : ConfigNode) (h : q ∈ keysNP m) :
    ∃ pre node post, m = pre ++ (q, node) :: post ∧ q ∉ keysNP pre ∧
      pushChildNP m q c = pre ++ (q, node.addChild c) :: post := by
  induction m with
  | nil => simp [keysNP] at h
  | cons hd t ih =>
    obtain ⟨q2, n⟩ := hd
    by_cases hq : q2 = q
    · subst hq
      refine ⟨[], n, t, rfl, by simp [keysNP], ?_⟩
      simp [pushChildNP]
    · rw [keysNP_cons] at h
      rcases List.mem_cons.mp h with h1 | h2
      · exact absurd h1.symm hq
      · obtain ⟨pre, node, post, h3, h4, h5⟩ := ih h2
        refine ⟨(q2, n) :: pre, node, post, ?_, ?_, ?_⟩
        · rw [h3, List.cons_append]
        · rw [keysNP_cons]
          intro hmem
          rcases List.mem_cons.mp hmem with h5b | h6
          · exact hq h5b.symm
          · exact h4 h6
        · simp only [pushChildNP, if_neg hq]
          rw [h5, List.cons_append]

theorem insertNP_keys_cases (m : List (RelPath × ConfigNode)) (p : RelPath)
    (c : ConfigNode) :
    (∀ r ∈ keysNP m, r ∈ keysNP (insertNP m p c)) ∧
    p ∈ keysNP (insertNP m p c) ∧
    (∀ r ∈ keysNP (insertNP m p c), r ∈ keysNP m ∨ r = p) := by
  induction m with
  | nil =>
    refine ⟨?_, ?_, ?_⟩
    · intro r hr
      simp [keysNP] at hr
    · simp [insertNP, keysNP]
    · intro r hr
      simp [insertNP, keysNP] at hr
      exact Or.inr hr
  | cons hd t ih =>
    obtain ⟨q, n⟩ := hd
    by_cases hq : q = p
    · subst hq
      have hins : insertNP ((q, n) :: t) q c = (q, c) :: t := by
        simp [insertNP]
      rw [hins]
      refine ⟨?_, ?_, ?_⟩
      · intro r hr
        rw [keysNP_cons] at hr ⊢
        exact hr
      · rw [keysNP_cons]
        exact List.mem_cons_self _ _
      · intro r hr
        rw [keysNP_cons] at hr ⊢
        exact Or.inl hr
    · have hins : insertNP ((q, n) :: t) p c = (q, n) :: insertNP t p c := by
        simp [insertNP, if_neg hq]
      rw [hins]
      obtain ⟨ih1, ih2, ih3⟩ := ih
      refine ⟨?_, ?_, ?_⟩
      · intro r hr
        rw [keysNP_cons] at hr ⊢
        rcases List.mem_cons.mp hr with h1 | h2
        · exact List.mem_cons.mpr (Or.inl h1)
        · exact List.mem_cons.mpr (Or.inr (ih1 r h2))
      · rw [keysNP_cons]
        exact List.mem_cons.mpr (Or.inr ih2)
      · intro r hr
        rw [keysNP_cons] at hr ⊢
        rcases List.mem_cons.mp hr with h1 | h2
        · exact Or.inl (List.mem_cons.mpr (Or.inl h1))
        · rcases ih3 r h2 with h3 | h4
          · exact Or.inl (List.mem_cons.mpr (Or.inr h3))
          · exact Or.inr h4

theorem findAnc_eq_aux : ∀ (k : Nat) (m : List (RelPath × ConfigNode)) (q : RelPath),
    q.length ≤ k → findAnc m q = specAncAux (keysNP m) q := by
  intro k
  induction k with
  | zero =>
    intro m q hq
    have hq0 : q = [] := List.length_eq_zero.mp (Nat.le_zero.mp hq)
    subst hq0
    rw [findAnc, specAncAux]
    simp
  | succ k ih =>
    intro m q hq
    by_cases hq0 : q = []
    · subst hq0
      rw [findAnc, specAncAux]
      simp
    · rw [findAnc]
      conv_rhs => rw [specAncAux]
      rw [dif_neg hq0, dif_neg hq0]
      by_cases hmem : q ∈ keysNP m
      · rw [if_pos ((lookupNP_isSome_iff_mem m q).mpr hmem), if_pos hmem]
      · rw [if_neg (fun h => hmem ((lookupNP_isSome_iff_mem m q).mp h)), if_neg hmem]
        apply ih
        rcases q with _ | ⟨a, t⟩
        · exact absurd rfl hq0
        · simp only [parentP, List.length_dropLast, List.length_cons] at hq ⊢
          omega

theorem findAnc_eq (m : List (RelPath × ConfigNode)) (q : RelPath) :
    findAnc m q = specAncAux (keysNP m) q :=
  findAnc_eq_aux q.length m q (Nat.le_refl _)

theorem specAncAux_congr_aux : ∀ (k : Nat) (keys1 keys2 : List RelPath) (q : RelPath),
    q.length ≤ k → (∀ r, r.length ≤ q.length → (r ∈ keys1 ↔ r ∈ keys2)) →
    specAncAux keys1 q = specAncAux keys2 q := by
  intro k
  induction k with
  | zero =>
    intro keys1 keys2 q hq h
    have hq0 : q = [] := List.length_eq_zero.mp (Nat.le_zero.mp hq)
    subst hq0
    rw [specAncAux]
    conv_rhs => rw [specAncAux]
    simp
  | succ k ih =>
    intro keys1 keys2 q hq h
    by_cases hq0 : q = []
    · subst hq0
      rw [specAncAux]
      conv_rhs => rw [specAncAux]
      simp
    · rw [specAncAux]
      conv_rhs => rw [specAncAux]
      rw [dif_neg hq0, dif_neg hq0]
      by_cases hmem : q ∈ keys1
      · rw [if_pos hmem, if_pos ((h q (Nat.le_refl _)).mp hmem)]
      · rw [if_neg hmem, if_neg (fun h2 => hmem ((h q (Nat.le_refl _)).mpr h2))]
        have hlt : (parentP q).length < q.length := by
          rcases q with _ | ⟨a, t⟩
          · exact absurd rfl hq0
          · simp [parentP, List.length_dropLast]
        apply ih
        · omega
        · intro r hr
          exact h r (by omega)

theorem specAncAux_congr (keys1 keys2 : List RelPath) (q : RelPath)
    (h : ∀ r, r.length ≤ q.length → (r ∈ keys1 ↔ r ∈ keys2)) :
    specAncAux keys1 q = specAncAux keys2 q :=
  specAncAux_congr_aux q.length keys1 keys2 q (Nat.le_refl _) h

theorem specAncAux_mem_or_nil_aux : ∀ (k : Nat) (keys : List RelPath) (q : RelPath),
    q.length ≤ k → specAncAux keys q ∈ keys ∨ specAncAux keys q = [] := by
  intro k
  induction k with
  | zero =>
    intro keys q hq
    have hq0 : q = [] := List.length_eq_zero.mp (Nat.le_zero.mp hq)
    subst hq0
    rw [specAncAux]
    simp
  | succ k ih =>
    intro keys q hq
    by_cases hq0 : q = []
    · subst hq0
      rw [specAncAux]
      simp
    · rw [specAncAux, dif_neg hq0]
      by_cases hmem : q ∈ keys
      · rw [if_pos hmem]
        exact Or.inl hmem
      · rw [if_neg hmem]
        apply ih
        rcases q with _ | ⟨a, t⟩
        · exact absurd rfl hq0
        · simp only [parentP, List.length_dropLast, List.length_cons] at hq ⊢
          omega

theorem specAncAux_mem_or_nil (keys : List RelPath) (q : RelPath) :
    specAncAux keys q ∈ keys ∨ specAncAux keys q = [] :=
  specAncAux_mem_or_nil_aux q.length keys q (Nat.le_refl _)

theorem specAncAux_length_le_aux : ∀ (k : Nat) (keys : List RelPath) (q : RelPath),
    q.length ≤ k → (specAncAux keys q).length ≤ q.length := by
  intro k
  induction k with
  | zero =>
    intro keys q hq
    have hq0 : q = [] := List.length_eq_zero.mp (Nat.le_zero.mp hq)
    subst hq0
    rw [specAncAux]
    simp
  | succ k ih =>
    intro keys q hq
    by_cases hq0 : q = []
    · subst hq0
      rw [specAncAux]
      simp
    · rw [specAncAux, dif_neg hq0]
      by_cases hmem : q ∈ keys
      · rw [if_pos hmem]
      · rw [if_neg hmem]
        have hlt : (parentP q).length < q.length := by
          rcases q with _ | ⟨a, t⟩
          · exact absurd rfl hq0
          · simp [parentP, List.length_dropLast]
        have h2 := ih keys (parentP q) (by omega)
        omega

theorem flattenNodes_append (a b : List ConfigNode) :
    flattenNodes (a ++ b) = flattenNodes a ++ flattenNodes b := by
  induction a with
  | nil => simp [flattenNodes]
  | cons c cs ih =>
    rw [List.cons_append, flattenNodes, flattenNodes, ih, List.append_assoc]

theorem edgesOfNodes_append (a b : List ConfigNode) :
    edgesOfNodes (a ++ b) = edgesOfNodes a ++ edgesOfNodes b := by
  induction a with
  | nil => simp [edgesOfNodes]
  | cons c cs ih =>
    rw [List.cons_append, edgesOfNodes, edgesOfNodes, ih, List.append_assoc]

theorem flattenNode_destruct (n : ConfigNode) :
    flattenNode n = (n.path, n.desc, n.configs, n.depends_on) :: flattenNodes n.children := by
  obtain ⟨d, cfg, ch, p, dep⟩ := n
  rfl

theorem flattenNode_addChild (n c : ConfigNode) :
    flattenNode (n.addChild c) = flattenNode n ++ flattenNode c := by
  obtain ⟨d, cfg, ch, p, dep⟩ := n
  rw [ConfigNode.addChild, flattenNode, flattenNode, flattenNodes_append, flattenNodes,
    flattenNodes, List.append_nil, List.cons_append]

theorem addChild_path (n c : ConfigNode) : (n.addChild c).path = n.path := by
  obtain ⟨d, cfg, ch, p, dep⟩ := n
  rfl

theorem addChild_desc (n c : ConfigNode) : (n.addChild c).desc = n.desc := by
  obtain ⟨d, cfg, ch, p, dep⟩ := n
  rfl

theorem addChild_configs (n c : ConfigNode) : (n.addChild c).configs = n.configs := by
  obtain ⟨d, cfg, ch, p, dep⟩ := n
  rfl

theorem addChild_depends_on (n c : ConfigNode) : (n.addChild c).depends_on = n.depends_on := by
  obtain ⟨d, cfg, ch, p, dep⟩ := n
  rfl

theorem mem_flattenNodes (l : List ConfigNode) (t : PTuple) :
    t ∈ flattenNodes l ↔ ∃ c ∈ l, t ∈ flattenNode c := by
  induction l with
  | nil => simp [flattenNodes]
  | cons c cs ih =>
    rw [flattenNodes, List.mem_append, ih]
    constructor
    · intro h
      rcases h with h1 | ⟨c2, hc2, ht2⟩
      · exact ⟨c, List.mem_cons_self _ _, h1⟩
      · exact ⟨c2, List.mem_cons_of_mem _ hc2, ht2⟩
    · rintro ⟨c2, hc2, ht2⟩
      rcases List.mem_cons.mp hc2 with h1 | h2
      · exact Or.inl (h1 ▸ ht2)
      · exact Or.inr ⟨c2, h2, ht2⟩

theorem mem_edgesOfNodes (l : List ConfigNode) (e : RelPath × RelPath) :
    e ∈ edgesOfNodes l ↔ ∃ c ∈ l, e ∈ edgesOfNode c := by
  induction l with
  | nil => simp [edgesOfNodes]
  | cons c cs ih =>
    rw [edgesOfNodes, List.mem_append, ih]
    constructor
    · intro h
      rcases h with h1 | ⟨c2, hc2, ht2⟩
      · exact ⟨c, List.mem_cons_self _ _, h1⟩
      · exact ⟨c2, List.mem_cons_of_mem _ hc2, ht2⟩
    · rintro ⟨c2, hc2, ht2⟩
      rcases List.mem_cons.mp hc2 with h1 | h2
      · exact Or.inl (h1 ▸ ht2)
      · exact Or.inr ⟨c2, h2, ht2⟩

theorem edgesOfNode_addChild (n c : ConfigNode) (e : RelPath × RelPath)
    (he : e ∈ edgesOfNode (n.addChild c)) :
    e = (n.path, c.path) ∨ e ∈ edgesOfNode n ∨ e ∈ edgesOfNode c := by
  obtain ⟨d, cfg, ch, p, dep⟩ := n
  rw [ConfigNode.addChild, edgesOfNode, List.mem_append, List.map_append,
    List.mem_append, edgesOfNodes_append] at he
  rcases he with (h1 | h2) | h3
  · right
    left
    rw [edgesOfNode, List.mem_append]
    exact Or.inl h1
  · left
    simp only [List.map_cons, List.map_nil, List.mem_singleton] at h2
    rw [h2]
    rfl
  · rw [List.mem_append] at h3
    rcases h3 with h4 | h5
    · right
      left
      rw [edgesOfNode, List.mem_append]
      exact Or.inr h4
    · right
      right
      rw [edgesOfNodes, edgesOfNodes, List.append_nil] at h5
      exact h5

theorem edgesOfNode_destruct (n : ConfigNode) :
    edgesOfNode n = n.children.map (fun c => (n.path, c.path)) ++ edgesOfNodes n.children := by
  obtain ⟨d, cfg, ch, p, dep⟩ := n
  rfl

theorem flattenNode_path_or_edge_aux : ∀ (k : Nat) (n : ConfigNode), sizeOf n ≤ k →
    ∀ t ∈ flattenNode n, t.1 = n.path ∨ ∃ e ∈ edgesOfNode n, e.2 = t.1 := by
  intro k
  induction k with
  | zero =>
    intro n hn
    exfalso
    obtain ⟨d, cfg, ch, p, dep⟩ := n
    simp only [ConfigNode.mk.sizeOf_spec] at hn
    omega
  | succ k ih =>
    intro n hn t ht
    obtain ⟨d, cfg, ch, p, dep⟩ := n
    rw [flattenNode] at ht
    rcases List.mem_cons.mp ht with h1 | h2
    · left
      rw [h1]
      rfl
    · obtain ⟨c, hc, htc⟩ := (mem_flattenNodes ch t).mp h2
      have hsz : sizeOf c ≤ k := by
        have h3 := List.sizeOf_lt_of_mem hc
        simp only [ConfigNode.mk.sizeOf_spec] at hn
        omega
      rcases ih c hsz t htc with h3 | h4
      · right
        refine ⟨(p, c.path), ?_, h3.symm ▸ rfl⟩
        rw [edgesOfNode, List.mem_append]
        exact Or.inl (List.mem_map_of_mem (fun c2 => (p, c2.path)) hc)
      · obtain ⟨e, he, he2⟩ := h4
        right
        refine ⟨e, ?_, he2⟩
        rw [edgesOfNode, List.mem_append]
        exact Or.inr ((mem_edgesOfNodes ch e).mpr ⟨c, hc, he⟩)

theorem flattenNode_path_or_edge (n : ConfigNode) (t : PTuple) (ht : t ∈ flattenNode n) :
    t.1 = n.path ∨ ∃ e ∈ edgesOfNode n, e.2 = t.1 :=
  flattenNode_path_or_edge_aux (sizeOf n) n (Nat.le_refl _) t ht

theorem maxLen_ge (ps : List RelPath) :
    ∀ p ∈ ps, p.length ≤ ps.foldr (fun p acc => max p.length acc) 0 := by
  induction ps with
  | nil => simp
  | cons q t ih =>
    intro p hp
    rcases List.mem_cons.mp hp with h1 | h2
    · subst h1
      simp only [List.foldr_cons]
      exact Nat.le_max_left _ _
    · simp only [List.foldr_cons]
      exact Nat.le_trans (ih p h2) (Nat.le_max_right _ _)

theorem sortPaths_sound (ps : List RelPath) (p : RelPath)
    (h : p ∈ sortPathsDepthDesc ps) : p ∈ ps := by
  simp only [sortPathsDepthDesc] at h
  rw [List.mem_flatMap] at h
  obtain ⟨d, _, hp⟩ := h
  exact (List.mem_filter.mp hp).1

theorem sortPaths_complete (ps : List RelPath) (p : RelPath) (h : p ∈ ps) :
    p ∈ sortPathsDepthDesc ps := by
  simp only [sortPathsDepthDesc]
  rw [List.mem_flatMap]
  refine ⟨p.length, ?_, ?_⟩
  · rw [List.mem_reverse, List.mem_range]
    have h2 := maxLen_ge ps p h
    omega
  · rw [List.mem_filter]
    exact ⟨h, by simp⟩

theorem sortPaths_pairwise (ps : List RelPath) :
    (sortPathsDepthDesc ps).Pairwise (fun a b => b.length ≤ a.length) := by
  simp only [sortPathsDepthDesc]
  rw [List.pairwise_flatMap]
  constructor
  · intro d _
    apply List.pairwise_of_forall_mem_list
    intro a ha b hb
    have ha2 : a.length = d := by simpa using (List.mem_filter.mp ha).2
    have hb2 : b.length = d := by simpa using (List.mem_filter.mp hb).2
    omega
  · have hrange : (List.range (ps.foldr (fun p acc => max p.length acc) 0 + 1)).reverse.Pairwise
        (fun d1 d2 => d2 < d1) := by
      rw [List.pairwise_reverse]
      exact List.pairwise_lt_range _
    apply List.Pairwise.imp ?_ hrange
    intro d1 d2 hlt x hx y hy
    have hx2 : x.length = d1 := by simpa using (List.mem_filter.mp hx).2
    have hy2 : y.length = d2 := by simpa using (List.mem_filter.mp hy).2
    omega

theorem sortPaths_nodup (ps : List RelPath) (hnd : ps.Nodup) :
    (sortPathsDepthDesc ps).Nodup := by
  simp only [sortPathsDepthDesc]
  rw [List.nodup_flatMap]
  constructor
  · intro d _
    exact hnd.filter _
  · have hrange : (List.range (ps.foldr (fun p acc => max p.length acc) 0 + 1)).reverse.Pairwise
        (fun d1 d2 => d2 < d1) := by
      rw [List.pairwise_reverse]
      exact List.pairwise_lt_range _
    apply List.Pairwise.imp ?_ hrange
    intro d1 d2 hlt x hx hy
    have hx2 : x.length = d1 := by simpa using (List.mem_filter.mp hx).2
    have hy2 : x.length = d2 := by simpa using (List.mem_filter.mp hy).2
    omega

theorem perm_extract_block {α : Type} (X C Y : List α) :
    (X ++ (C ++ Y)).Perm (C ++ (X ++ Y)) := by
  have h2 : ((X ++ C) ++ Y).Perm ((C ++ X) ++ Y) :=
    List.Perm.append_right Y List.perm_append_comm
  rw [List.append_assoc, List.append_assoc] at h2
  exact h2

theorem flattenMap_append (a b : List (RelPath × ConfigNode)) :
    flattenMap (a ++ b) = flattenMap a ++ flattenMap b := by
  simp [flattenMap]

theorem flattenMap_cons (e : RelPath × ConfigNode) (t : List (RelPath × ConfigNode)) :
    flattenMap (e :: t) = flattenNode e.2 ++ flattenMap t := by
  simp [flattenMap]

theorem edgesMap_append (a b : List (RelPath × ConfigNode)) :
    edgesMap (a ++ b) = edgesMap a ++ edgesMap b := by
  simp [edgesMap]

theorem edgesMap_cons (e : RelPath × ConfigNode) (t : List (RelPath × ConfigNode)) :
    edgesMap (e :: t) = edgesOfNode e.2 ++ edgesMap t := by
  simp [edgesMap]

theorem mem_edgesMap_of_mem (m : List (RelPath × ConfigNode))
    (en : RelPath × ConfigNode) (hen : en ∈ m) (e : RelPath × RelPath)
    (he : e ∈ edgesOfNode en.2) : e ∈ edgesMap m := by
  rw [edgesMap, List.mem_flatMap]
  exact ⟨en, hen, he⟩

/-- Invariant-carrying induction over the assembly loop when a root node is
present: the loop never panics, keys shrink to exactly the root, top-level
entries keep their scanned data, the tuple multiset is preserved, and every
edge created links a node to its nearest ancestor among the original keys. -/
theorem assembleLoopA (K : List RelPath) (orig : List PTuple) (hroot : [] ∈ K) :
    ∀ (todo : List RelPath) (m : List (RelPath × ConfigNode)),
    (∀ p ∈ todo, p ∈ K) →
    todo.Nodup →
    todo.Pairwise (fun a b => b.length ≤ a.length) →
    (∀ r ∈ K, r ∉ todo → ∀ p2 ∈ todo, p2.length ≤ r.length) →
    (keysNP m).Nodup →
    (∀ r, r ∈ keysNP m ↔ r ∈ K ∧ (r ∈ todo ∨ r = [])) →
    (∀ e ∈ m, e.2.path = e.1 ∧ tupleOf e ∈ orig) →
    (flattenMap m).Perm orig →
    (∀ e ∈ edgesMap m, e.2 ≠ [] ∧ e.1 = specAncAux K (parentP e.2)) →
    ∃ mf, List.foldlM stepAttach m todo = some mf ∧
      (keysNP mf).Nodup ∧
      (∀ r, r ∈ keysNP mf ↔ r ∈ K ∧ r = []) ∧
      (∀ e ∈ mf, e.2.path = e.1 ∧ tupleOf e ∈ orig) ∧
      (flattenMap mf).Perm orig ∧
      (∀ e ∈ edgesMap mf, e.2 ≠ [] ∧ e.1 = specAncAux K (parentP e.2)) := by
  intro todo
  induction todo with
  | nil =>
    intro m _ _ _ _ inv1 inv2 inv3 inv4 inv5
    refine ⟨m, rfl, inv1, ?_, inv3, inv4, inv5⟩
    intro r
    rw [inv2 r]
    simp
  | cons p rest ih =>
    intro m htodoK htodoNd hsorted hcomplete inv1 inv2 inv3 inv4 inv5
    rw [List.foldlM_cons]
    rw [List.pairwise_cons] at hsorted
    rw [List.nodup_cons] at htodoNd
    by_cases hp0 : p = []
    · subst hp0
      have hstep : stepAttach m [] = some m := by
        rw [stepAttach, if_pos rfl]
      rw [hstep]
      apply ih m
      · intro p2 hp2
        exact htodoK p2 (List.mem_cons_of_mem _ hp2)
      · exact htodoNd.2
      · exact hsorted.2
      · intro r hr hnr p2 hp2
        by_cases hrt : r ∈ [] :: rest
        · rcases List.mem_cons.mp hrt with h1 | h2
          · subst h1
            have := hsorted.1 p2 hp2
            simpa using this
          · exact absurd h2 hnr
        · exact hcomplete r hr hrt p2 (List.mem_cons_of_mem _ hp2)
      · exact inv1
      · intro r
        rw [inv2 r]
        constructor
        · rintro ⟨h1, h2 | h3⟩
          · rcases List.mem_cons.mp h2 with h4 | h5
            · exact ⟨h1, Or.inr h4⟩
            · exact ⟨h1, Or.inl h5⟩
          · exact ⟨h1, Or.inr h3⟩
        · rintro ⟨h1, h2 | h3⟩
          · exact ⟨h1, Or.inl (List.mem_cons_of_mem _ h2)⟩
          · exact ⟨h1, Or.inr h3⟩
      · exact inv3
      · exact inv4
      · exact inv5
    · have hpK : p ∈ K := htodoK p (List.mem_cons_self _ _)
      have hpkeys : p ∈ keysNP m := (inv2 p).mpr ⟨hpK, Or.inl (List.mem_cons_self _ _)⟩
      obtain ⟨cur, m2, hext⟩ := extractNP_isSome m p hpkeys
      obtain ⟨pre, post, hm, hm2, hprekeys⟩ := extractNP_spec m p cur m2 hext
      have hkeysm : keysNP m = keysNP pre ++ p :: keysNP post := by
        rw [hm, keysNP_append, keysNP_cons]
      have hkeysm2 : keysNP m2 = keysNP pre ++ keysNP post := by
        rw [hm2, keysNP_append]
      have hpermkeys : (keysNP m).Perm (p :: keysNP m2) := by
        rw [hkeysm, hkeysm2]
        exact List.perm_middle
      have hnd2 : (p :: keysNP m2).Nodup := hpermkeys.nodup_iff.mp inv1
      rw [List.nodup_cons] at hnd2
      have hmemm2 : ∀ r, r ∈ keysNP m2 ↔ r ∈ keysNP m ∧ r ≠ p := by
        intro r
        constructor
        · intro hr
          refine ⟨hpermkeys.mem_iff.mpr (List.mem_cons_of_mem _ hr), ?_⟩
          intro he
          exact hnd2.1 (he ▸ hr)
        · rintro ⟨hr, hrp⟩
          rcases List.mem_cons.mp (hpermkeys.mem_iff.mp hr) with h1 | h2
          · exact absurd h1 hrp
          · exact h2
      have hcharm2 : ∀ r, r ∈ keysNP m2 ↔ r ∈ K ∧ (r ∈ rest ∨ r = []) := by
        intro r
        rw [hmemm2 r, inv2 r]
        constructor
        · rintro ⟨⟨h1, h2 | h3⟩, h4⟩
          · rcases List.mem_cons.mp h2 with h5 | h6
            · exact absurd h5 h4
            · exact ⟨h1, Or.inl h6⟩
          · exact ⟨h1, Or.inr h3⟩
        · rintro ⟨h1, h2 | h3⟩
          · refine ⟨⟨h1, Or.inl (List.mem_cons_of_mem _ h2)⟩, ?_⟩
            intro he
            exact htodoNd.1 (he ▸ h2)
          · refine ⟨⟨h1, Or.inr h3⟩, ?_⟩
            intro he
            exact hp0 (he.symm.trans h3)
      have hparlen : (parentP p).length < p.length := by
        rcases p with _ | ⟨a, t⟩
        · exact absurd rfl hp0
        · simp [parentP, List.length_dropLast]
      have hq : findAnc m2 (parentP p) = specAncAux K (parentP p) := by
        rw [findAnc_eq]
        apply specAncAux_congr
        intro r hr
        rw [hcharm2 r]
        constructor
        · rintro ⟨h1, _⟩
          exact h1
        · intro h1
          refine ⟨h1, ?_⟩
          by_cases hr0 : r = []
          · exact Or.inr hr0
          · left
            by_cases hrt : r ∈ p :: rest
            · rcases List.mem_cons.mp hrt with h2 | h3
              · exfalso
                subst h2
                omega
              · exact h3
            · exfalso
              have := hcomplete r h1 hrt p (List.mem_cons_self _ _)
              omega
      have hqmem : specAncAux K (parentP p) ∈ keysNP m2 := by
        rcases specAncAux_mem_or_nil K (parentP p) with h1 | h2
        · rw [hcharm2]
          refine ⟨h1, ?_⟩
          by_cases hq0 : specAncAux K (parentP p) = []
          · exact Or.inr hq0
          · left
            have hlen := specAncAux_length_le_aux (parentP p).length K (parentP p) (Nat.le_refl _)
            by_cases hrt : specAncAux K (parentP p) ∈ p :: rest
            · rcases List.mem_cons.mp hrt with h2 | h3
              · exfalso
                rw [h2] at hlen
                omega
              · exact h3
            · exfalso
              have := hcomplete _ h1 hrt p (List.mem_cons_self _ _)
              omega
        · rw [h2, hcharm2]
          exact ⟨hroot, Or.inr rfl⟩
      obtain ⟨parent, hlook⟩ :=
        Option.isSome_iff_exists.mp ((lookupNP_isSome_iff_mem m2 _).mpr hqmem)
      have hstep : stepAttach m p = some (pushChildNP m2 (specAncAux K (parentP p)) cur) := by
        rw [stepAttach, if_neg hp0, hext]
        simp only [hq, hlook]
      obtain ⟨pre2, node, post2, hm2d, hpre2keys, hpush⟩ :=
        pushChildNP_spec m2 (specAncAux K (parentP p)) cur hqmem
      set q := specAncAux K (parentP p) with hqdef
      have hmemm : ∀ e, e ∈ m2 → e ∈ m := by
        intro e he
        rw [hm]
        rw [hm2] at he
        rcases List.mem_append.mp he with h1 | h2
        · exact List.mem_append.mpr (Or.inl h1)
        · exact List.mem_append.mpr (Or.inr (List.mem_cons_of_mem _ h2))
      have hcurm : (p, cur) ∈ m := by
        rw [hm]
        exact List.mem_append.mpr (Or.inr (List.mem_cons_self _ _))
      have hnodem2 : (q, node) ∈ m2 := by
        rw [hm2d]
        exact List.mem_append.mpr (Or.inr (List.mem_cons_self _ _))
      have hnodem : (q, node) ∈ m := hmemm _ hnodem2
      have hnodepath : node.path = q := (inv3 _ hnodem).1
      have hcurpath : cur.path = p := (inv3 _ hcurm).1
      have hm3 := hpush
      have hA : ∀ p2 ∈ rest, p2 ∈ K :=
        fun p2 hp2 => htodoK p2 (List.mem_cons_of_mem _ hp2)
      have hD : ∀ r ∈ K, r ∉ rest → ∀ p2 ∈ rest, p2.length ≤ r.length := by
        intro r hr hnr p2 hp2
        by_cases hrt : r ∈ p :: rest
        · rcases List.mem_cons.mp hrt with h1 | h2
          · subst h1
            exact hsorted.1 p2 hp2
          · exact absurd h2 hnr
        · exact hcomplete r hr hrt p2 (List.mem_cons_of_mem _ hp2)
      have hE : (keysNP (pushChildNP m2 q cur)).Nodup := by
        rw [pushChildNP_keys]
        rw [hkeysm2]
        rw [hkeysm] at inv1
        exact (List.perm_middle.nodup_iff.mp inv1).of_cons
      have hF : ∀ r, r ∈ keysNP (pushChildNP m2 q cur) ↔ r ∈ K ∧ (r ∈ rest ∨ r = []) := by
        intro r
        rw [pushChildNP_keys]
        exact hcharm2 r
      have hG : ∀ e ∈ pushChildNP m2 q cur, e.2.path = e.1 ∧ tupleOf e ∈ orig := by
        intro e he
        rw [hm3] at he
        rcases List.mem_append.mp he with h1 | h2
        · exact inv3 e (hmemm e (by rw [hm2d]; exact List.mem_append.mpr (Or.inl h1)))
        · rcases List.mem_cons.mp h2 with h3 | h4
          · subst h3
            constructor
            · rw [addChild_path]
              exact hnodepath
            · have := (inv3 _ hnodem).2
              simpa [tupleOf, addChild_desc, addChild_configs, addChild_depends_on] using this
          · exact inv3 e (hmemm e (by
              rw [hm2d]
              exact List.mem_append.mpr (Or.inr (List.mem_cons_of_mem _ h4))))
      have hH : (flattenMap (pushChildNP m2 q cur)).Perm orig := by
        have hfm : flattenMap m = flattenMap pre ++ (flattenNode cur ++ flattenMap post) := by
          rw [hm, flattenMap_append, flattenMap_cons]
        have hfm2 : flattenMap m2 = flattenMap pre ++ flattenMap post := by
          rw [hm2, flattenMap_append]
        have hfm2d : flattenMap m2 = flattenMap pre2 ++ (flattenNode node ++ flattenMap post2) := by
          rw [hm2d, flattenMap_append, flattenMap_cons]
        have hfm3 : flattenMap (pushChildNP m2 q cur) =
            flattenMap pre2 ++ (flattenNode node ++ (flattenNode cur ++ flattenMap post2)) := by
          rw [hm3, flattenMap_append, flattenMap_cons]
          simp only [flattenNode_addChild]
          rw [List.append_assoc]
        have hstep1 : (flattenMap (pushChildNP m2 q cur)).Perm
            (flattenNode cur ++ flattenMap m2) := by
          rw [hfm3, hfm2d]
          have h1 : (flattenNode node ++ (flattenNode cur ++ flattenMap post2)).Perm
              (flattenNode cur ++ (flattenNode node ++ flattenMap post2)) :=
            perm_extract_block _ _ _
          have h2 := h1.append_left (flattenMap pre2)
          exact h2.trans (perm_extract_block _ _ _)
        have hstep2 : (flattenMap m).Perm (flattenNode cur ++ flattenMap m2) := by
          rw [hfm, hfm2]
          exact perm_extract_block _ _ _
        exact (hstep1.trans hstep2.symm).trans inv4
      have hI : ∀ e ∈ edgesMap (pushChildNP m2 q cur),
          e.2 ≠ [] ∧ e.1 = specAncAux K (parentP e.2) := by
        intro e he
        rw [edgesMap, List.mem_flatMap] at he
        obtain ⟨en, hen, hee⟩ := he
        rw [hm3] at hen
        rcases List.mem_append.mp hen with h1 | h2
        · exact inv5 e (mem_edgesMap_of_mem m en
            (hmemm en (by rw [hm2d]; exact List.mem_append.mpr (Or.inl h1))) e hee)
        · rcases List.mem_cons.mp h2 with h3 | h4
          · subst h3
            simp only at hee
            rcases edgesOfNode_addChild node cur e hee with h5 | h6 | h7
            · rw [h5, hnodepath, hcurpath]
              exact ⟨hp0, rfl⟩
            · exact inv5 e (mem_edgesMap_of_mem m (q, node) hnodem e h6)
            · exact inv5 e (mem_edgesMap_of_mem m (p, cur) hcurm e h7)
          · exact inv5 e (mem_edgesMap_of_mem m en
              (hmemm en (by
                rw [hm2d]
                exact List.mem_append.mpr (Or.inr (List.mem_cons_of_mem _ h4)))) e hee)
      obtain ⟨mf, hfold, hrest⟩ :=
        ih (pushChildNP m2 q cur) hA htodoNd.2 hsorted.2 hD hE hF hG hH hI
      refine ⟨mf, ?_, hrest⟩
      rw [hstep]
      exact hfold

/-- When every key is nonempty, the assembly loop never panics and never
creates an empty-path entry: reinsertion keeps each orphan at its own path. -/
theorem assembleLoopB :
    ∀ (todo : List RelPath) (m : List (RelPath × ConfigNode)),
    todo.Nodup →
    (∀ p ∈ todo, p ∈ keysNP m) →
    (∀ r ∈ keysNP m, r ≠ []) →
    ∃ mf, List.foldlM stepAttach m todo = some mf ∧ ∀ r ∈ keysNP mf, r ≠ [] := by
  intro todo
  induction todo with
  | nil =>
    intro m _ _ hne
    exact ⟨m, rfl, hne⟩
  | cons p rest ih =>
    intro m hnd hsub hne
    rw [List.nodup_cons] at hnd
    rw [List.foldlM_cons]
    by_cases hp0 : p = []
    · exact absurd hp0 (hne p (hsub p (List.mem_cons_self _ _)))
    · have hpkeys : p ∈ keysNP m := hsub p (List.mem_cons_self _ _)
      obtain ⟨cur, m2, hext⟩ := extractNP_isSome m p hpkeys
      obtain ⟨pre, post, hm, hm2, _⟩ := extractNP_spec m p cur m2 hext
      have hpermkeys : (keysNP m).Perm (p :: keysNP m2) := by
        rw [hm, hm2, keysNP_append, keysNP_append, keysNP_cons]
        exact List.perm_middle
      have hm2sub : ∀ r ∈ keysNP m2, r ∈ keysNP m :=
        fun r hr => hpermkeys.mem_iff.mpr (List.mem_cons_of_mem _ hr)
      have hm2of : ∀ r ∈ keysNP m, r ≠ p → r ∈ keysNP m2 := by
        intro r hr hrp
        rcases List.mem_cons.mp (hpermkeys.mem_iff.mp hr) with h1 | h2
        · exact absurd h1 hrp
        · exact h2
      have hne2 : ∀ r ∈ keysNP m2, r ≠ [] := fun r hr => hne r (hm2sub r hr)
      have hrest2 : ∀ r ∈ rest, r ∈ keysNP m2 := by
        intro r hr
        refine hm2of r (hsub r (List.mem_cons_of_mem _ hr)) ?_
        intro he
        exact hnd.1 (he ▸ hr)
      cases hlook : lookupNP m2 (findAnc m2 (parentP p)) with
      | some parent =>
        have hstep : stepAttach m p = some (pushChildNP m2 (findAnc m2 (parentP p)) cur) := by
          rw [stepAttach, if_neg hp0, hext]
          simp only [hlook]
        obtain ⟨mf, hfold, hmf⟩ := ih (pushChildNP m2 (findAnc m2 (parentP p)) cur) hnd.2
          (by intro r hr
              rw [pushChildNP_keys]
              exact hrest2 r hr)
          (by intro r hr
              rw [pushChildNP_keys] at hr
              exact hne2 r hr)
        refine ⟨mf, ?_, hmf⟩
        rw [hstep]
        exact hfold
      | none =>
        have hguard : ¬ (findAnc m2 (parentP p) = [] ∧ (lookupNP m2 []).isSome = true) := by
          rintro ⟨hq0, hsome⟩
          rw [hq0] at hlook
          rw [hlook] at hsome
          simp at hsome
        have hstep : stepAttach m p = some (insertNP m2 p cur) := by
          rw [stepAttach, if_neg hp0, hext]
          simp only [hlook]
          rw [if_neg hguard]
        obtain ⟨mf, hfold, hmf⟩ := ih (insertNP m2 p cur) hnd.2
          (by intro r hr
              exact (insertNP_keys_cases m2 p cur).1 r (hrest2 r hr))
          (by intro r hr
              rcases (insertNP_keys_cases m2 p cur).2.2 r hr with h1 | h2
              · exact hne2 r h1
              · rw [h2]
                exact hp0)
        refine ⟨mf, ?_, hmf⟩
        rw [hstep]
        exact hfold

/-- A map of scanned (childless) nodes flattens to exactly one data tuple per
entry. -/
theorem flattenMap_of_leaf (m : List (RelPath × ConfigNode))
    (hpath : ∀ e ∈ m, e.2.path = e.1) (hleaf : ∀ e ∈ m, e.2.children = []) :
    flattenMap m = m.map tupleOf := by
  induction m with
  | nil => rfl
  | cons e t ih =>
    have h1 := hpath e (List.mem_cons_self _ _)
    have h2 := hleaf e (List.mem_cons_self _ _)
    rw [flattenMap_cons, List.map_cons,
      ih (fun x hx => hpath x (List.mem_cons_of_mem _ hx))
        (fun x hx => hleaf x (List.mem_cons_of_mem _ hx))]
    obtain ⟨p, n⟩ := e
    obtain ⟨d, cfg, ch, np, dep⟩ := n
    simp only [ConfigNode.children] at h2
    simp only [ConfigNode.path] at h1
    subst h2
    subst h1
    rw [flattenNode, flattenNodes]
    rfl

/-- A map of scanned (childless) nodes holds no edges. -/
theorem edgesMap_of_leaf (m : List (RelPath × ConfigNode))
    (hleaf : ∀ e ∈ m, e.2.children = []) :
    edgesMap m = [] := by
  induction m with
  | nil => rfl
  | cons e t ih =>
    have h2 := hleaf e (List.mem_cons_self _ _)
    rw [edgesMap_cons, ih (fun x hx => hleaf x (List.mem_cons_of_mem _ hx))]
    obtain ⟨p, n⟩ := e
    obtain ⟨d, cfg, ch, np, dep⟩ := n
    simp only [ConfigNode.children] at h2
    subst h2
    rw [edgesOfNode, edgesOfNodes]
    rfl

/-- C3: from a scanned node map with unique keys, self-describing paths and
childless nodes, build_config_tree fails with the missing-root error exactly
when no empty-path node exists; with a root present it returns a tree that
holds exactly the scanned nodes with their items, the root at the empty path,
and every other node attached under the nearest ancestor path present in the
scanned key set (the root when no ancestor exists). -/
theorem build_config_tree_spec (m0 : List (RelPath × ConfigNode))
    (hnd : (keysNP m0).Nodup)
    (hpath : ∀ e ∈ m0, e.2.path = e.1)
    (hleaf : ∀ e ∈ m0, e.2.children = []) :
    (([] : RelPath) ∉ keysNP m0 →
      build_config_tree m0 =
        some (.error "No root Kconfig.toml found in the root directory")) ∧
    (([] : RelPath) ∈ keysNP m0 →
      ∃ root, build_config_tree m0 = some (.ok root) ∧
        root.path = [] ∧
        (flattenNode root).Perm (m0.map tupleOf) ∧
        (∀ e ∈ edgesOfNode root, e.2 ≠ [] ∧ e.1 = specAnc (keysNP m0) e.2) ∧
        (∀ t ∈ flattenNode root, t.1 = [] ∨ ∃ e ∈ edgesOfNode root, e.2 = t.1)) := by
  have horder1 : ∀ p ∈ sortPathsDepthDesc (keysNP m0), p ∈ keysNP m0 :=
    fun p hp => sortPaths_sound _ p hp
  have horder2 := sortPaths_nodup (keysNP m0) hnd
  have horder3 := sortPaths_pairwise (keysNP m0)
  constructor
  · intro hnr
    have hne : ∀ r ∈ keysNP m0, r ≠ [] := by
      intro r hr he
      exact hnr (he ▸ hr)
    obtain ⟨mf, hfold, hmf⟩ := assembleLoopB (sortPathsDepthDesc (keysNP m0)) m0
      horder2 horder1 hne
    have hnone : extractNP mf [] = none := by
      cases hx : extractNP mf [] with
      | none => rfl
      | some pr =>
        obtain ⟨c2, m2⟩ := pr
        obtain ⟨pre, post, hm, _, _⟩ := extractNP_spec mf [] c2 m2 hx
        have hmem : ([] : RelPath) ∈ keysNP mf := by
          rw [hm, keysNP_append, keysNP_cons]
          exact List.mem_append.mpr (Or.inr (List.mem_cons_self _ _))
        exact absurd rfl (hmf [] hmem)
    simp only [build_config_tree]
    rw [hfold]
    simp only []
    rw [hnone]
  · intro hr
    have hcomplete : ∀ r ∈ keysNP m0, r ∉ sortPathsDepthDesc (keysNP m0) →
        ∀ p2 ∈ sortPathsDepthDesc (keysNP m0), p2.length ≤ r.length := by
      intro r hrK hrt _ _
      exact absurd (sortPaths_complete _ r hrK) hrt
    have hchar : ∀ r, r ∈ keysNP m0 ↔
        r ∈ keysNP m0 ∧ (r ∈ sortPathsDepthDesc (keysNP m0) ∨ r = []) := by
      intro r
      constructor
      · intro h
        exact ⟨h, Or.inl (sortPaths_complete _ r h)⟩
      · exact fun h => h.1
    have hinv3 : ∀ e ∈ m0, e.2.path = e.1 ∧ tupleOf e ∈ m0.map tupleOf := by
      intro e he
      exact ⟨hpath e he, List.mem_map_of_mem _ he⟩
    have hinv4 : (flattenMap m0).Perm (m0.map tupleOf) := by
      rw [flattenMap_of_leaf m0 hpath hleaf]
    have hinv5 : ∀ e ∈ edgesMap m0, e.2 ≠ [] ∧
        e.1 = specAncAux (keysNP m0) (parentP e.2) := by
      intro e he
      rw [edgesMap_of_leaf m0 hleaf] at he
      exact absurd he (List.not_mem_nil e)
    obtain ⟨mf, hfold, hfnd, hfchar, hfdata, hfperm, hfedge⟩ :=
      assembleLoopA (keysNP m0) (m0.map tupleOf) hr (sortPathsDepthDesc (keysNP m0)) m0
        horder1 horder2 horder3 hcomplete hnd hchar hinv3 hinv4 hinv5
    have hrootkey : ([] : RelPath) ∈ keysNP mf := (hfchar []).mpr ⟨hr, rfl⟩
    have honly : ∀ r ∈ keysNP mf, r = [] := fun r hrr => ((hfchar r).mp hrr).2
    obtain ⟨root, hmf⟩ : ∃ root, mf = [([], root)] := by
      rcases mf with _ | ⟨⟨p1, n1⟩, t⟩
      · exact absurd hrootkey (List.not_mem_nil _)
      · rcases t with _ | ⟨⟨p2, n2⟩, t2⟩
        · have h1 : p1 = [] := honly p1 (List.mem_cons_self _ _)
          subst h1
          exact ⟨n1, rfl⟩
        · exfalso
          have h1 : p1 = [] := honly p1 (by simp [keysNP])
          have h2 : p2 = [] := honly p2 (by simp [keysNP])
          simp [keysNP, h1, h2, List.nodup_cons] at hfnd
    have hext : extractNP mf [] = some (root, []) := by
      rw [hmf]
      simp [extractNP]
    have hrootmem : (([] : RelPath), root) ∈ mf := by
      rw [hmf]
      exact List.mem_cons_self _ _
    have hfm : flattenMap mf = flattenNode root := by
      rw [hmf, flattenMap_cons]
      simp [flattenMap]
    have hem : edgesMap mf = edgesOfNode root := by
      rw [hmf, edgesMap_cons]
      simp [edgesMap]
    refine ⟨root, ?_, ?_, ?_, ?_, ?_⟩
    · simp only [build_config_tree]
      rw [hfold]
      simp only []
      rw [hext]
    · exact (hfdata _ hrootmem).1
    · rw [← hfm]
      exact hfperm
    · intro e he
      rw [← hem] at he
      exact hfedge e he
    · intro t ht
      rcases flattenNode_path_or_edge root t ht with h1 | ⟨e, he, hee⟩
      · left
        rw [h1, (hfdata _ hrootmem).1]
      · exact Or.inr ⟨e, he, hee⟩

/-- Scanned root node of the witness tree. -/
def witNodeRoot : ConfigNode := .mk "Root menu" [] [] [] none

/-- Scanned child node of the witness tree, at path sub. -/
def witNodeSub : ConfigNode := .mk "Sub menu" [] [] ["sub"] none

/-- Witness scanned map: a root node and one child directory node. -/
def witM0 : List (RelPath × ConfigNode) := [([], witNodeRoot), (["sub"], witNodeSub)]

/-- Concrete run of the tree-building specification: on a two-node scan the
assembly succeeds and attaches the child under the root. -/
theorem build_config_tree_spec_witness :
    (([] : RelPath) ∈ keysNP witM0) ∧
    (∃ root, build_config_tree witM0 = some (.ok root) ∧
      root.path = [] ∧
      (flattenNode root).Perm (witM0.map tupleOf) ∧
      (∀ e ∈ edgesOfNode root, e.2 ≠ [] ∧ e.1 = specAnc (keysNP witM0) e.2) ∧
      (∀ t ∈ flattenNode root, t.1 = [] ∨ ∃ e ∈ edgesOfNode root, e.2 = t.1)) :=
  ⟨by decide,
    (build_config_tree_spec witM0 (by decide) (by decide)
      (by
        intro e he
        rcases List.mem_cons.mp he with h | h2
        · rw [h]
          rfl
        · rcases List.mem_cons.mp h2 with h3 | h4
          · rw [h3]
            rfl
          · exact absurd h4 (List.not_mem_nil e))).2 (by decide)⟩
